import Mathlib

/-!
Verification of the CG (conjugate gradient) benchmark core of this repository.

The embedding follows `master_t_parallel_c/CG/cg.cpp` (the near identical
`NPB-OLD/NPB-OMP/CG/cg.cpp` serves as a cross check) and
`master_t_parallel_c/CG/main.cpp`.

Numbers: the benchmark computes with IEEE doubles.  The random stream
(`randlc`), the sparse pattern generator and the matrix assembly only ever
hold values that are exact in double precision (46-bit integers, their
2^-46 multiples, and small integer indices), so those parts are embedded
over `ℚ`/`ℤ`/`ℕ`, which represents the double computation exactly.  The
conjugate gradient solver's reductions are embedded over `ℝ` in exact
arithmetic: the structural and frame claims about it do not depend on
rounding.  Arrays indexed by `int64_t` become total functions `ℤ → α`
(or lists where a fixed-size buffer is meant); `for` loops become folds,
a data parallel `omp for` writing one slot per iteration becomes the
corresponding pointwise function, and a `reduction(+:..)` loop becomes a
`Finset.sum`.  Fatal `throw`s become `Except.error`, and the one loop
whose termination is probabilistic (`generate_sparse_vector`) takes fuel.
-/

namespace NPBCG

/-! ## C-style truncation

`static_cast<int64_t>` on a (nonnegative) double truncates toward zero;
`Int.tdiv` is exactly C's truncating division. -/

/-- Truncation of a rational toward zero, the value that
`static_cast<int64_t>` produces on a double holding this rational. -/
def truncQ (q : ℚ) : ℤ := q.num.tdiv q.den

/-- On nonnegative rationals C truncation agrees with the floor. -/
lemma truncQ_eq_floor (q : ℚ) (h : 0 ≤ q) : truncQ q = ⌊q⌋ := by
  rw [truncQ, Rat.floor_def]
  exact Int.tdiv_eq_ediv (Rat.num_nonneg.mpr h) (Int.ofNat_nonneg q.den)

/-- Truncating `m / 2^k` for a natural `m` is natural division. -/
lemma truncQ_natCast_div_pow (m k : ℕ) :
    truncQ ((m : ℚ) / (2 ^ k : ℚ)) = ((m / 2 ^ k : ℕ) : ℤ) := by
  rw [truncQ_eq_floor _ (by positivity)]
  rw [show ((m : ℚ)) = ((m : ℤ) : ℚ) by norm_cast,
    show ((2 ^ k : ℚ)) = ((2 ^ k : ℕ) : ℚ) by norm_cast,
    Rat.floor_intCast_div_natCast]
  push_cast
  rfl

/-! ## The 46-bit linear congruential random stream

`randlc` (cg.cpp lines 16-58).  The source computes, once, the constants
`r23 = 2^-23`, `t23 = 2^23`, `r46 = 2^-46`, `t46 = 2^46` by repeated
halving/doubling (exact in double precision); here they are written as the
rational constants they hold.  Every intermediate of the double-wide
multiply fits in 53 mantissa bits when `x` and `a` are integers below
`2^46`, so the double computation is exact and the `ℚ` embedding is
faithful for such inputs. -/

/-- The LCG step: from state `x` and multiplier `a`, the updated state and
the returned value `r46 * x_new`.  (The C function writes the new state
through the pointer and returns the value; here both are returned.) -/
def randlc (x a : ℚ) : ℚ × ℚ :=
  let r23 : ℚ := 1 / 2 ^ 23
  let t23 : ℚ := 2 ^ 23
  let r46 : ℚ := 1 / 2 ^ 46
  let t46 : ℚ := 2 ^ 46
  let a1 : ℚ := (truncQ (r23 * a) : ℤ)
  let a2 : ℚ := a - t23 * a1
  let x1 : ℚ := (truncQ (r23 * x) : ℤ)
  let x2 : ℚ := x - t23 * x1
  let t1 : ℚ := a1 * x2 + a2 * x1
  let t2 : ℚ := (truncQ (r23 * t1) : ℤ)
  let z : ℚ := t1 - t23 * t2
  let t3 : ℚ := t23 * z + a2 * x2
  let t4 : ℚ := (truncQ (r46 * t3) : ℤ)
  let xNew : ℚ := t3 - t46 * t4
  (xNew, r46 * xNew)

/-- The seed `tran = 314159265.0` (cg.cpp line 13). -/
def tran0 : ℚ := 314159265

/-- The multiplier `amult = 1220703125.0` (cg.cpp line 14). -/
def amult : ℚ := 1220703125

/-- The split multiply-and-reduce identity on naturals: writing
`a = 2^23*A1 + A2` and `x = 2^23*X1 + X2`, the low word `t3` of the
double-wide product is congruent to `a*x` modulo `2^46`. -/
lemma randlc_key (an xn : ℕ) :
    (2 ^ 23 * ((an / 2 ^ 23 * (xn % 2 ^ 23) + an % 2 ^ 23 * (xn / 2 ^ 23)) % 2 ^ 23)
        + an % 2 ^ 23 * (xn % 2 ^ 23)) % 2 ^ 46
      = (an * xn) % 2 ^ 46 := by
  set A1 := an / 2 ^ 23 with hA1
  set A2 := an % 2 ^ 23 with hA2
  set X1 := xn / 2 ^ 23 with hX1
  set X2 := xn % 2 ^ 23 with hX2
  set T1 := A1 * X2 + A2 * X1 with hT1
  have han : 2 ^ 23 * A1 + A2 = an := Nat.div_add_mod an (2 ^ 23)
  have hxn : 2 ^ 23 * X1 + X2 = xn := Nat.div_add_mod xn (2 ^ 23)
  have hT : 2 ^ 23 * (T1 / 2 ^ 23) + T1 % 2 ^ 23 = T1 := Nat.div_add_mod T1 (2 ^ 23)
  have key : an * xn
      = 2 ^ 46 * (A1 * X1 + T1 / 2 ^ 23) + (2 ^ 23 * (T1 % 2 ^ 23) + A2 * X2) := by
    calc an * xn = (2 ^ 23 * A1 + A2) * (2 ^ 23 * X1 + X2) := by rw [han, hxn]
      _ = 2 ^ 46 * (A1 * X1) + 2 ^ 23 * T1 + A2 * X2 := by rw [hT1]; ring
      _ = 2 ^ 46 * (A1 * X1) + 2 ^ 23 * (2 ^ 23 * (T1 / 2 ^ 23) + T1 % 2 ^ 23)
            + A2 * X2 := by rw [hT]
      _ = 2 ^ 46 * (A1 * X1 + T1 / 2 ^ 23) + (2 ^ 23 * (T1 % 2 ^ 23) + A2 * X2) := by
            ring
  rw [key, Nat.mul_add_mod]

/-- `randlc` on exact integer states: the new state is exactly
`(a * x) mod 2^46` and the returned value is that state divided by `2^46`.
(The identity holds for all naturals; the `2^46` bounds of the claim are
what make the double-precision computation exact.) -/
lemma randlc_int (xn an : ℕ) :
    randlc (xn : ℚ) (an : ℚ)
      = ((((an * xn) % 2 ^ 46 : ℕ) : ℚ),
          (((an * xn) % 2 ^ 46 : ℕ) : ℚ) / (2 ^ 46 : ℚ)) := by
  have cast_sub_div_mod : ∀ m : ℕ, ∀ k : ℕ,
      (m : ℚ) - (2 : ℚ) ^ k * ((m / 2 ^ k : ℕ) : ℚ) = ((m % 2 ^ k : ℕ) : ℚ) := by
    intro m k
    have h := Nat.div_add_mod m (2 ^ k)
    have h2 : ((2 ^ k * (m / 2 ^ k) + m % 2 ^ k : ℕ) : ℚ) = (m : ℚ) := by rw [h]
    rw [Nat.cast_add, Nat.cast_mul, Nat.cast_pow, Nat.cast_ofNat] at h2
    linarith
  have tr : ∀ m k : ℕ, truncQ ((1 / 2 ^ k : ℚ) * (m : ℚ)) = ((m / 2 ^ k : ℕ) : ℤ) := by
    intro m k
    rw [show (1 / 2 ^ k : ℚ) * (m : ℚ) = (m : ℚ) / (2 ^ k : ℚ) by ring]
    exact truncQ_natCast_div_pow m k
  simp only [randlc]
  rw [tr an 23, tr xn 23]
  simp only [Int.cast_natCast]
  rw [cast_sub_div_mod an 23, cast_sub_div_mod xn 23]
  rw [show ((an / 2 ^ 23 : ℕ) : ℚ) * ((xn % 2 ^ 23 : ℕ) : ℚ)
        + ((an % 2 ^ 23 : ℕ) : ℚ) * ((xn / 2 ^ 23 : ℕ) : ℚ)
      = ((an / 2 ^ 23 * (xn % 2 ^ 23) + an % 2 ^ 23 * (xn / 2 ^ 23) : ℕ) : ℚ) by
    rw [Nat.cast_add, Nat.cast_mul, Nat.cast_mul]]
  rw [tr _ 23]
  simp only [Int.cast_natCast]
  rw [cast_sub_div_mod _ 23]
  rw [show (2 : ℚ) ^ 23 * (((an / 2 ^ 23 * (xn % 2 ^ 23) + an % 2 ^ 23 * (xn / 2 ^ 23))
          % 2 ^ 23 : ℕ) : ℚ)
        + ((an % 2 ^ 23 : ℕ) : ℚ) * ((xn % 2 ^ 23 : ℕ) : ℚ)
      = ((2 ^ 23 * ((an / 2 ^ 23 * (xn % 2 ^ 23) + an % 2 ^ 23 * (xn / 2 ^ 23)) % 2 ^ 23)
          + an % 2 ^ 23 * (xn % 2 ^ 23) : ℕ) : ℚ) by
    rw [Nat.cast_add, Nat.cast_mul, Nat.cast_mul, Nat.cast_pow, Nat.cast_ofNat]]
  rw [tr _ 46]
  simp only [Int.cast_natCast]
  rw [cast_sub_div_mod _ 46]
  rw [randlc_key an xn]
  simp only [Prod.mk.injEq]
  exact ⟨trivial, by ring⟩

/-- A double holding a valid LCG state: an exact integer in `[0, 2^46)`. -/
def IsLCGState (s : ℚ) : Prop := ∃ m : ℕ, m < 2 ^ 46 ∧ s = (m : ℚ)

lemma isLCGState_tran0 : IsLCGState tran0 := ⟨314159265, by norm_num, by norm_num [tran0]⟩

/-- Stepping the stream with the benchmark multiplier keeps the state a
46-bit integer and returns a value in `[0, 1)`. -/
lemma randlc_state (s : ℚ) (hs : IsLCGState s) :
    IsLCGState (randlc s amult).1
      ∧ 0 ≤ (randlc s amult).2 ∧ (randlc s amult).2 < 1 := by
  obtain ⟨m, hm, rfl⟩ := hs
  have hcast : amult = ((1220703125 : ℕ) : ℚ) := by norm_num [amult]
  rw [hcast, randlc_int]
  have hlt : (1220703125 * m) % 2 ^ 46 < 2 ^ 46 := Nat.mod_lt _ (by norm_num)
  refine ⟨⟨(1220703125 * m) % 2 ^ 46, hlt, rfl⟩, by positivity, ?_⟩
  have hq : (((1220703125 * m) % 2 ^ 46 : ℕ) : ℚ) < (2 : ℚ) ^ 46 := by exact_mod_cast hlt
  rw [div_lt_one (by positivity)]
  exact hq

/-- **C4.** For every state `x` and multiplier `a` that are exact integers in
`[0, 2^46)` stored in doubles, `randlc(&x, a)` updates `x` to exactly
`(a * x) mod 2^46` and returns `x_new * 2^-46`, a value in `[0, 1)`.  The
`ℚ` embedding represents the double computation exactly for such inputs
(every intermediate of the split multiply fits in 53 mantissa bits, so no
floating-point rounding occurs).  Determinism — the same `(state,
multiplier)` pair always giving the same `(new state, value)` — holds
definitionally, `randlc` being a pure function of its two arguments. -/
theorem claimC4_randlc_exact (xn an : ℕ) (hx : xn < 2 ^ 46) (ha : an < 2 ^ 46) :
    (randlc (xn : ℚ) (an : ℚ)).1 = (((an * xn) % 2 ^ 46 : ℕ) : ℚ)
      ∧ (randlc (xn : ℚ) (an : ℚ)).2 = (randlc (xn : ℚ) (an : ℚ)).1 / 2 ^ 46
      ∧ 0 ≤ (randlc (xn : ℚ) (an : ℚ)).2
      ∧ (randlc (xn : ℚ) (an : ℚ)).2 < 1 := by
  rw [randlc_int]
  have hlt : (an * xn) % 2 ^ 46 < 2 ^ 46 := Nat.mod_lt _ (by norm_num)
  have hltq : (((an * xn) % 2 ^ 46 : ℕ) : ℚ) < (2 : ℚ) ^ 46 := by exact_mod_cast hlt
  refine ⟨rfl, rfl, by positivity, ?_⟩
  rw [div_lt_one (by positivity)]
  exact hltq

/-- Witness for C4 at the benchmark's own seed and multiplier. -/
theorem claimC4_randlc_exact_witness :
    (randlc ((314159265 : ℕ) : ℚ) ((1220703125 : ℕ) : ℚ)).1
      = (((1220703125 * 314159265) % 2 ^ 46 : ℕ) : ℚ) :=
  (claimC4_randlc_exact 314159265 1220703125 (by norm_num) (by norm_num)).1

/-! ## The sparse vector generator

`generate_sparse_vector` (cg.cpp lines 413-438) and `vector_set`
(lines 440-458).  The generator's rejection loop terminates only with
probability one, so the embedding takes fuel; running out reports
`"out of fuel"`.  The C++ stores go through unchecked `operator[]`; the
embedding checks them and reports `"write out of bounds"`, so that
in-bounds claims become the absence of that error. -/

/-- Truncation of a nonnegative rational is nonnegative. -/
lemma truncQ_nonneg (q : ℚ) (h : 0 ≤ q) : 0 ≤ truncQ q := by
  rw [truncQ_eq_floor q h]
  exact Int.floor_nonneg.mpr h

/-- `convert_real_to_int` (cg.cpp lines 60-62):
`static_cast<int64_t>(power2 * x)`. -/
def convert_real_to_int (x : ℚ) (power2 : ℤ) : ℤ := truncQ ((power2 : ℚ) * x)

/-- A bounds-checked store into a fixed-size buffer. -/
def setChecked {α : Type} (l : List α) (i : ℕ) (x : α) : Except String (List α) :=
  if i < l.length then .ok (l.set i x) else .error "write out of bounds"

lemma setChecked_ok {α : Type} (l : List α) (i : ℕ) (x : α) (h : i < l.length) :
    setChecked l i x = .ok (l.set i x) := by
  rw [setChecked, if_pos h]

lemma setChecked_inv {α : Type} {l l2 : List α} {i : ℕ} {x : α}
    (h : setChecked l i x = .ok l2) : l2 = l.set i x ∧ i < l.length := by
  by_cases hi : i < l.length
  · rw [setChecked_ok l i x hi] at h
    exact ⟨(Except.ok.injEq _ _ ▸ h).symm, hi⟩
  · rw [setChecked, if_neg hi] at h
    exact absurd h (by simp)

/-- Setting the slot just past a prefix extends the prefix. -/
lemma take_succ_set {α : Type} (l : List α) (i : ℕ) (x : α) (h : i < l.length) :
    (l.set i x).take (i + 1) = l.take i ++ [x] := by
  apply List.ext_getElem
  · simp [List.length_take, List.length_set]
    omega
  · intro j hj1 hj2
    rw [List.getElem_take, List.getElem_set]
    rcases Nat.lt_or_ge j i with hji | hji
    · rw [if_neg (by omega), List.getElem_append_left (by simp; omega),
        List.getElem_take]
    · have : j = i := by simp [List.length_take] at hj1; omega
      subst this
      rw [if_pos rfl]
      rw [List.getElem_append_right (by simp [List.length_take])]
      simp [List.length_take]

/-- `generate_sparse_vector` (cg.cpp lines 413-438): draw `(value,
location)` pairs from the stream, reject locations above `n` and
duplicate locations, store accepted pairs at slot `nzv`, until `nz`
accepted entries exist.  The duplicate test mirrors the source's
`std::any_of` over `iv[0..nzv)`. -/
def generate_sparse_vector (n : ℤ) (nz : ℕ) (nn1 : ℤ) :
    ℕ → ℚ → List ℚ → List ℤ → ℕ → Except String (List ℚ × List ℤ × ℚ)
  | 0, s, v, iv, nzv =>
      if nzv < nz then .error "out of fuel" else .ok (v, iv, s)
  | fuel + 1, s, v, iv, nzv =>
      if nzv < nz then
        let r1 := randlc s amult
        let vecelt := r1.2
        let r2 := randlc r1.1 amult
        let vecloc := r2.2
        let i := convert_real_to_int vecloc nn1 + 1
        if i > n then
          generate_sparse_vector n nz nn1 fuel r2.1 v iv nzv
        else if i ∈ iv.take nzv then
          generate_sparse_vector n nz nn1 fuel r2.1 v iv nzv
        else
          match setChecked v nzv vecelt, setChecked iv nzv i with
          | .ok v2, .ok iv2 => generate_sparse_vector n nz nn1 fuel r2.1 v2 iv2 (nzv + 1)
          | _, _ => .error "write out of bounds"
      else .ok (v, iv, s)

/-- The generator's loop invariant: from a valid stream state and a
duplicate-free, in-range stored prefix, a successful run ends with `nz`
pairwise-distinct indices in `[1, n]` in the first `nz` slots of `iv`, a
valid final stream state, and unchanged buffer lengths. -/
lemma generate_sparse_vector_post (n : ℤ) (nz : ℕ) (nn1 : ℤ) (hnn1 : 0 ≤ nn1) :
    ∀ (fuel : ℕ) (s : ℚ) (v : List ℚ) (iv : List ℤ) (nzv : ℕ)
      (v2 : List ℚ) (iv2 : List ℤ) (s2 : ℚ),
      IsLCGState s →
      (iv.take nzv).Nodup →
      (∀ c ∈ iv.take nzv, 1 ≤ c ∧ c ≤ n) →
      nzv ≤ nz → nz ≤ iv.length →
      generate_sparse_vector n nz nn1 fuel s v iv nzv = .ok (v2, iv2, s2) →
      v2.length = v.length ∧ iv2.length = iv.length ∧
        (iv2.take nz).Nodup ∧ (∀ c ∈ iv2.take nz, 1 ≤ c ∧ c ≤ n) ∧
        (iv2.take nz).length = nz ∧ IsLCGState s2 := by
  intro fuel
  induction fuel with
  | zero =>
    intro s v iv nzv v2 iv2 s2 hs hnd hrange hle hlen hrun
    rw [generate_sparse_vector] at hrun
    by_cases h : nzv < nz
    · rw [if_pos h] at hrun
      exact absurd hrun (by simp)
    · rw [if_neg h] at hrun
      have heq : nzv = nz := le_antisymm hle (le_of_not_lt h)
      simp only [Except.ok.injEq, Prod.mk.injEq] at hrun
      obtain ⟨hv, hiv, hs2⟩ := hrun
      subst hv; subst hiv; subst hs2; subst heq
      exact ⟨rfl, rfl, hnd, hrange, by simp [List.length_take]; omega, hs⟩
  | succ fuel ih =>
    intro s v iv nzv v2 iv2 s2 hs hnd hrange hle hlen hrun
    rw [generate_sparse_vector] at hrun
    by_cases h : nzv < nz
    · rw [if_pos h] at hrun
      simp only [] at hrun
      obtain ⟨hs1, -, -⟩ := randlc_state s hs
      obtain ⟨hs2, hvl0, -⟩ := randlc_state _ hs1
      by_cases hgt : convert_real_to_int (randlc (randlc s amult).1 amult).2 nn1 + 1 > n
      · rw [if_pos hgt] at hrun
        exact ih _ _ _ _ _ _ _ hs2 hnd hrange hle hlen hrun
      · rw [if_neg hgt] at hrun
        by_cases hmem :
            convert_real_to_int (randlc (randlc s amult).1 amult).2 nn1 + 1 ∈ iv.take nzv
        · rw [if_pos hmem] at hrun
          exact ih _ _ _ _ _ _ _ hs2 hnd hrange hle hlen hrun
        · rw [if_neg hmem] at hrun
          cases hsv : setChecked v nzv (randlc s amult).2 with
          | error e =>
            cases hsi : setChecked iv nzv
                (convert_real_to_int (randlc (randlc s amult).1 amult).2 nn1 + 1) with
            | error e2 => rw [hsv, hsi] at hrun; exact absurd hrun (by simp)
            | ok ivb => rw [hsv, hsi] at hrun; exact absurd hrun (by simp)
          | ok vb =>
            cases hsi : setChecked iv nzv
                (convert_real_to_int (randlc (randlc s amult).1 amult).2 nn1 + 1) with
            | error e => rw [hsv, hsi] at hrun; exact absurd hrun (by simp)
            | ok ivb =>
              rw [hsv, hsi] at hrun
              obtain ⟨hvb, hvblen⟩ := setChecked_inv hsv
              obtain ⟨hivb, hivblen⟩ := setChecked_inv hsi
              subst hvb; subst hivb
              have htake : (iv.set nzv
                  (convert_real_to_int (randlc (randlc s amult).1 amult).2 nn1 + 1)).take
                    (nzv + 1)
                  = iv.take nzv
                    ++ [convert_real_to_int (randlc (randlc s amult).1 amult).2 nn1 + 1] :=
                take_succ_set iv nzv _ hivblen
              have hnd2 : ((iv.set nzv
                  (convert_real_to_int (randlc (randlc s amult).1 amult).2 nn1 + 1)).take
                    (nzv + 1)).Nodup := by
                rw [htake]
                simp [List.nodup_append, hnd, hmem]
              have hrange2 : ∀ c ∈ (iv.set nzv
                  (convert_real_to_int (randlc (randlc s amult).1 amult).2 nn1 + 1)).take
                    (nzv + 1), 1 ≤ c ∧ c ≤ n := by
                rw [htake]
                intro c hc
                rcases List.mem_append.mp hc with hc | hc
                · exact hrange c hc
                · have hceq : c = convert_real_to_int
                      (randlc (randlc s amult).1 amult).2 nn1 + 1 := by
                    simpa using hc
                  subst hceq
                  constructor
                  · have : 0 ≤ convert_real_to_int
                        (randlc (randlc s amult).1 amult).2 nn1 :=
                      truncQ_nonneg _ (mul_nonneg (by exact_mod_cast hnn1) hvl0)
                    omega
                  · omega
              have := ih _ _ _ _ _ _ _ hs2 hnd2 hrange2 (by omega)
                (by rw [List.length_set]; exact hlen) hrun
              rw [List.length_set, List.length_set] at this
              exact this
    · rw [if_neg h] at hrun
      have heq : nzv = nz := le_antisymm hle (le_of_not_lt h)
      simp only [Except.ok.injEq, Prod.mk.injEq] at hrun
      obtain ⟨hv, hiv, hs2⟩ := hrun
      subst hv; subst hiv; subst hs2; subst heq
      exact ⟨rfl, rfl, hnd, hrange, by simp [List.length_take]; omega, hs⟩

/-- A successful generator run leaves both buffer lengths unchanged. -/
lemma generate_sparse_vector_lengths (n : ℤ) (nz : ℕ) (nn1 : ℤ) :
    ∀ (fuel : ℕ) (s : ℚ) (v : List ℚ) (iv : List ℤ) (nzv : ℕ)
      (v2 : List ℚ) (iv2 : List ℤ) (s2 : ℚ),
      generate_sparse_vector n nz nn1 fuel s v iv nzv = .ok (v2, iv2, s2) →
      v2.length = v.length ∧ iv2.length = iv.length := by
  intro fuel
  induction fuel with
  | zero =>
    intro s v iv nzv v2 iv2 s2 hrun
    rw [generate_sparse_vector] at hrun
    by_cases h : nzv < nz
    · rw [if_pos h] at hrun
      exact absurd hrun (by simp)
    · rw [if_neg h] at hrun
      simp only [Except.ok.injEq, Prod.mk.injEq] at hrun
      rw [← hrun.1, ← hrun.2.1]
      exact ⟨rfl, rfl⟩
  | succ fuel ih =>
    intro s v iv nzv v2 iv2 s2 hrun
    rw [generate_sparse_vector] at hrun
    by_cases h : nzv < nz
    · rw [if_pos h] at hrun
      simp only [] at hrun
      by_cases hgt : convert_real_to_int (randlc (randlc s amult).1 amult).2 nn1 + 1 > n
      · rw [if_pos hgt] at hrun
        exact ih _ _ _ _ _ _ _ hrun
      · rw [if_neg hgt] at hrun
        by_cases hmem :
            convert_real_to_int (randlc (randlc s amult).1 amult).2 nn1 + 1 ∈ iv.take nzv
        · rw [if_pos hmem] at hrun
          exact ih _ _ _ _ _ _ _ hrun
        · rw [if_neg hmem] at hrun
          cases hsv : setChecked v nzv (randlc s amult).2 with
          | error e =>
            cases hsi : setChecked iv nzv
                (convert_real_to_int (randlc (randlc s amult).1 amult).2 nn1 + 1) with
            | error e2 => rw [hsv, hsi] at hrun; exact absurd hrun (by simp)
            | ok ivb => rw [hsv, hsi] at hrun; exact absurd hrun (by simp)
          | ok vb =>
            cases hsi : setChecked iv nzv
                (convert_real_to_int (randlc (randlc s amult).1 amult).2 nn1 + 1) with
            | error e2 => rw [hsv, hsi] at hrun; exact absurd hrun (by simp)
            | ok ivb =>
              rw [hsv, hsi] at hrun
              obtain ⟨hvb, -⟩ := setChecked_inv hsv
              obtain ⟨hivb, -⟩ := setChecked_inv hsi
              subst hvb; subst hivb
              have := ih _ _ _ _ _ _ _ hrun
              rw [List.length_set, List.length_set] at this
              exact this
    · rw [if_neg h] at hrun
      simp only [Except.ok.injEq, Prod.mk.injEq] at hrun
      rw [← hrun.1, ← hrun.2.1]
      exact ⟨rfl, rfl⟩

/-- With buffers longer than `nz`, the generator never attempts an
out-of-bounds store: every write lands at a slot `nzv < nz`. -/
lemma generate_sparse_vector_no_oob (n : ℤ) (nz : ℕ) (nn1 : ℤ) :
    ∀ (fuel : ℕ) (s : ℚ) (v : List ℚ) (iv : List ℤ) (nzv : ℕ),
      nzv ≤ nz → nz < v.length → nz < iv.length →
      generate_sparse_vector n nz nn1 fuel s v iv nzv ≠ .error "write out of bounds" := by
  intro fuel
  induction fuel with
  | zero =>
    intro s v iv nzv h1 h2 h3 hcon
    rw [generate_sparse_vector] at hcon
    by_cases h : nzv < nz
    · rw [if_pos h] at hcon
      injection hcon with hstr
      exact absurd hstr (by decide)
    · rw [if_neg h] at hcon
      exact absurd hcon (by simp)
  | succ fuel ih =>
    intro s v iv nzv h1 h2 h3 hcon
    rw [generate_sparse_vector] at hcon
    by_cases h : nzv < nz
    · rw [if_pos h] at hcon
      simp only [] at hcon
      by_cases hgt : convert_real_to_int (randlc (randlc s amult).1 amult).2 nn1 + 1 > n
      · rw [if_pos hgt] at hcon
        exact ih _ _ _ _ h1 h2 h3 hcon
      · rw [if_neg hgt] at hcon
        by_cases hmem :
            convert_real_to_int (randlc (randlc s amult).1 amult).2 nn1 + 1 ∈ iv.take nzv
        · rw [if_pos hmem] at hcon
          exact ih _ _ _ _ h1 h2 h3 hcon
        · rw [if_neg hmem] at hcon
          rw [setChecked_ok v nzv _ (by omega)] at hcon
          rw [setChecked_ok iv nzv _ (by omega)] at hcon
          exact ih _ _ _ _ (by omega) (by rw [List.length_set]; omega)
            (by rw [List.length_set]; omega) hcon
    · rw [if_neg h] at hcon
      exact absurd hcon (by simp)

/-- `vector_set` (cg.cpp lines 440-458): overwrite the value at an
existing index `i`, or append `(i, val)` at slot `nzv` and bump the
count.  The lookup mirrors the source's `std::find` over `iv[0..nzv)`. -/
def vector_set (v : List ℚ) (iv : List ℤ) (nzv : ℕ) (i : ℤ) (val : ℚ) :
    Except String (List ℚ × List ℤ × ℕ) :=
  if i ∈ iv.take nzv then
    match setChecked v (List.indexOf i (iv.take nzv)) val with
    | .ok v2 => .ok (v2, iv, nzv)
    | .error e => .error e
  else
    match setChecked v nzv val, setChecked iv nzv i with
    | .ok v2, .ok iv2 => .ok (v2, iv2, nzv + 1)
    | _, _ => .error "write out of bounds"

/-- `vector_set` succeeds whenever slot `nzv` exists in both buffers; it
bumps the count exactly when the index was absent, and then the stored
index prefix is extended by `i`. -/
lemma vector_set_spec (v : List ℚ) (iv : List ℤ) (nzv : ℕ) (i : ℤ) (val : ℚ)
    (hv : nzv < v.length) (hiv : nzv < iv.length) :
    ∃ v2 iv2 nzv2,
      vector_set v iv nzv i val = .ok (v2, iv2, nzv2)
        ∧ (i ∈ iv.take nzv ∧ nzv2 = nzv ∧ iv2.take nzv2 = iv.take nzv
            ∨ i ∉ iv.take nzv ∧ nzv2 = nzv + 1 ∧ iv2.take nzv2 = iv.take nzv ++ [i])
        ∧ iv2.length = iv.length ∧ v2.length = v.length := by
  rw [vector_set]
  by_cases hmem : i ∈ iv.take nzv
  · rw [if_pos hmem]
    have hidx : List.indexOf i (iv.take nzv) < (iv.take nzv).length :=
      List.indexOf_lt_length.mpr hmem
    have hidx2 : List.indexOf i (iv.take nzv) < v.length := by
      rw [List.length_take] at hidx
      omega
    rw [setChecked_ok v _ val hidx2]
    exact ⟨_, _, _, rfl, Or.inl ⟨hmem, rfl, rfl⟩, rfl, List.length_set v _ val⟩
  · rw [if_neg hmem, setChecked_ok v nzv val hv, setChecked_ok iv nzv i hiv]
    exact ⟨_, _, _, rfl, Or.inr ⟨hmem, rfl, take_succ_set iv nzv i hiv⟩,
      List.length_set iv nzv i, List.length_set v nzv val⟩

/-- **C3.** For every `n ≥ 1`, every `k ≥ 0` and every power of two
`nn1 ≥ n`, whenever `generate_sparse_vector(n, k, nn1, v, iv)` returns,
the first `k` slots of `iv` hold exactly `k` pairwise-distinct indices,
each in `[1, n]`: out-of-range draws and duplicate draws are rejected and
never stored.  The stream state is the benchmark's `tran`, always an
exact 46-bit integer (`IsLCGState`). -/
theorem claimC3_generate_sparse_vector_distinct_in_range
    (n : ℤ) (k : ℕ) (nn1 : ℤ) (e : ℕ) (fuel : ℕ) (s : ℚ)
    (v : List ℚ) (iv : List ℤ) (v2 : List ℚ) (iv2 : List ℤ) (s2 : ℚ)
    (hn : 1 ≤ n) (hpow : nn1 = 2 ^ e) (hge : n ≤ nn1)
    (hs : IsLCGState s) (hlen : k ≤ iv.length)
    (hrun : generate_sparse_vector n k nn1 fuel s v iv 0 = .ok (v2, iv2, s2)) :
    (iv2.take k).length = k ∧ (iv2.take k).Nodup
      ∧ ∀ c ∈ iv2.take k, 1 ≤ c ∧ c ≤ n := by
  have h := generate_sparse_vector_post n k nn1 (by rw [hpow]; positivity)
    fuel s v iv 0 v2 iv2 s2 hs (by simp) (by simp) (Nat.zero_le k) hlen hrun
  exact ⟨h.2.2.2.2.1, h.2.2.1, h.2.2.2.1⟩

/-- Truncating a scaled `2^-k`-multiple is a natural division: the form
every `convert_real_to_int(vecloc, nn1)` call takes on stream values. -/
lemma convert_real_to_int_cast_div (m2 : ℕ) (k : ℕ) (p : ℕ) :
    convert_real_to_int ((m2 : ℚ) / 2 ^ k) ((p : ℕ) : ℤ) = ((p * m2 / 2 ^ k : ℕ) : ℤ) := by
  rw [convert_real_to_int,
    show (((p : ℕ) : ℤ) : ℚ) * ((m2 : ℚ) / 2 ^ k) = ((p * m2 : ℕ) : ℚ) / (2 ^ k : ℚ) by
      push_cast; ring,
    truncQ_natCast_div_pow]

/-- The concrete generator run used as witness: `n = 2`, `k = 1`,
`nn1 = 2`, starting from the benchmark seed; the first draw is accepted
and stored at slot 0. -/
lemma generate_sparse_vector_concrete_run :
    generate_sparse_vector 2 1 2 10 tran0 (List.replicate 2 0) (List.replicate 2 0) 0
      = .ok ([((55909509111989 : ℕ) : ℚ) / 2 ^ 46, 0], [2, 0],
          ((61155031930969 : ℕ) : ℚ)) := by
  have h1 : randlc tran0 amult
      = (((55909509111989 : ℕ) : ℚ), ((55909509111989 : ℕ) : ℚ) / 2 ^ 46) := by
    rw [show tran0 = ((314159265 : ℕ) : ℚ) by norm_num [tran0],
        show amult = ((1220703125 : ℕ) : ℚ) by norm_num [amult], randlc_int]
    norm_num
  have h2 : randlc (((55909509111989 : ℕ) : ℚ)) amult
      = (((61155031930969 : ℕ) : ℚ), ((61155031930969 : ℕ) : ℚ) / 2 ^ 46) := by
    rw [show amult = ((1220703125 : ℕ) : ℚ) by norm_num [amult], randlc_int]
    norm_num
  have h3 : convert_real_to_int (((61155031930969 : ℕ) : ℚ) / 2 ^ 46) 2 = 1 := by
    rw [show (2 : ℤ) = ((2 : ℕ) : ℤ) by norm_num, convert_real_to_int_cast_div]
    norm_num
  rw [generate_sparse_vector, if_pos (by norm_num)]
  simp only [h1, h2, h3]
  rw [if_neg (by norm_num)]
  rw [if_neg (by simp)]
  rw [setChecked_ok _ _ _ (by simp), setChecked_ok _ _ _ (by simp)]
  simp only [List.replicate, List.set]
  rw [generate_sparse_vector]
  rw [if_neg (by norm_num)]
  norm_num

/-- Witness for C3: the concrete run above satisfies the postcondition. -/
theorem claimC3_generate_sparse_vector_distinct_in_range_witness :
    (([2, 0] : List ℤ).take 1).length = 1 ∧ (([2, 0] : List ℤ).take 1).Nodup
      ∧ ∀ c ∈ ([2, 0] : List ℤ).take 1, 1 ≤ c ∧ c ≤ 2 :=
  claimC3_generate_sparse_vector_distinct_in_range 2 1 2 1 10 tran0
    (List.replicate 2 0) (List.replicate 2 0)
    [((55909509111989 : ℕ) : ℚ) / 2 ^ 46, 0] [2, 0] ((61155031930969 : ℕ) : ℚ)
    (by decide) (by decide) (by decide) isLCGState_tran0 (by decide)
    generate_sparse_vector_concrete_run

/-- **C10.** With the per-row buffers `vc`, `ivc` of capacity `nonzer + 1`
that `make_matrix` allocates (cg.cpp lines 266-270), the generator fills
slots `0..nonzer-1` only (it never attempts an out-of-bounds store), and
`vector_set` then succeeds, incrementing the count to `nonzer + 1` exactly
when the forced index `iouter + 1` was absent; so the final pattern size
is `nonzer` or `nonzer + 1`, and every store into `vc` and `ivc` lands at
an index strictly below `nonzer + 1`. -/
theorem claimC10_row_pattern_buffers_in_bounds
    (na : ℤ) (nonzer : ℕ) (nn1 : ℤ) (iouter : ℤ) (s : ℚ) (fuel : ℕ) :
    generate_sparse_vector na nonzer nn1 fuel s (List.replicate (nonzer + 1) 0)
        (List.replicate (nonzer + 1) 0) 0 ≠ .error "write out of bounds"
      ∧ ∀ v iv s2,
          generate_sparse_vector na nonzer nn1 fuel s (List.replicate (nonzer + 1) 0)
              (List.replicate (nonzer + 1) 0) 0 = .ok (v, iv, s2) →
          ∃ v2 iv2 nzv2,
            vector_set v iv nonzer (iouter + 1) (1 / 2) = .ok (v2, iv2, nzv2)
              ∧ (nzv2 = nonzer ∨ nzv2 = nonzer + 1)
              ∧ (nzv2 = nonzer + 1 → (iouter + 1) ∉ iv.take nonzer) := by
  constructor
  · exact generate_sparse_vector_no_oob na nonzer nn1 fuel s _ _ 0 (Nat.zero_le nonzer)
      (by simp) (by simp)
  · intro v iv s2 hrun
    obtain ⟨hvlen, hivlen⟩ := generate_sparse_vector_lengths na nonzer nn1
      fuel s _ _ 0 v iv s2 hrun
    rw [List.length_replicate] at hvlen hivlen
    obtain ⟨v2, iv2, nzv2, hvs, hcase, -, -⟩ :=
      vector_set_spec v iv nonzer (iouter + 1) (1 / 2) (by omega) (by omega)
    refine ⟨v2, iv2, nzv2, hvs, ?_, ?_⟩
    · rcases hcase with ⟨-, h, -⟩ | ⟨-, h, -⟩
      · exact Or.inl h
      · exact Or.inr h
    · intro hq
      rcases hcase with ⟨-, h, -⟩ | ⟨hab, -, -⟩
      · omega
      · exact hab

/-! ## The conjugate gradient solver

`conjugate_gradient` (cg.cpp lines 154-242), embedded over `ℝ` in exact
arithmetic.  Each data-parallel `omp for` loop writes one slot per
iteration, so it becomes the corresponding pointwise function; each
`reduction(+:..)` loop becomes a `Finset.sum` (the spec itself notes the
parallel reductions are order-dependent only up to floating-point
reassociation, which exact arithmetic quotients away).  The scalars
`rho`, `rho0`, `d`, `sum` are reset before use on every call, so they are
locals here. -/

/-- The state `conjugate_gradient` operates on: the CSR arrays `a_`,
`colidx_`, `rowstr_`, the size `na`, and the five dense vectors. -/
structure CGState where
  na : ℕ
  a : ℕ → ℝ
  colidx : ℕ → ℕ
  rowstr : ℕ → ℕ
  x : ℕ → ℝ
  z : ℕ → ℝ
  p : ℕ → ℝ
  q : ℕ → ℝ
  r : ℕ → ℝ

/-- One row of the sparse matrix-vector product: the inner
`for (k = rowstr[j]; k < rowstr[j+1]; k++) suml += a[k] * v[colidx[k]]`. -/
noncomputable def matvecRow (m : CGState) (v : ℕ → ℝ) (j : ℕ) : ℝ :=
  ∑ k in Finset.Ico (m.rowstr j) (m.rowstr (j + 1)), m.a k * v (m.colidx k)

/-- The initialization loop (lines 165-171): on `j ∈ [0, na]`,
`q[j] = 0; z[j] = 0; r[j] = x[j]; p[j] = r[j]`. -/
def cgInit (s : CGState) : CGState :=
  { s with
    q := fun j => if j < s.na + 1 then 0 else s.q j
    z := fun j => if j < s.na + 1 then 0 else s.z j
    r := fun j => if j < s.na + 1 then s.x j else s.r j
    p := fun j => if j < s.na + 1 then s.x j else s.p j }

/-- One inner CG iteration (lines 178-218) on the state and the running
scalar `rho`, whose incoming value plays `rho0`. -/
noncomputable def cgStep (sr : CGState × ℝ) : CGState × ℝ :=
  let s := sr.1
  let rho0 := sr.2
  let q2 := fun j => if j < s.na then matvecRow s s.p j else s.q j
  let d := ∑ j in Finset.range s.na, s.p j * q2 j
  let alpha := rho0 / d
  let z2 := fun j => if j < s.na then s.z j + alpha * s.p j else s.z j
  let r2 := fun j => if j < s.na then s.r j - alpha * q2 j else s.r j
  let rho := ∑ j in Finset.range s.na, r2 j * r2 j
  let beta := rho / rho0
  let p2 := fun j => if j < s.na then r2 j + beta * s.p j else s.p j
  ({ s with q := q2, z := z2, r := r2, p := p2 }, rho)

/-- The initialized state and initial `rho = r·r` (lines 159-176), then
the fixed inner loop `for (cgit = 1; cgit <= cgitmax; cgit++)` with
`cgitmax = 25` and no convergence exit (lines 178-218). -/
noncomputable def cgLoopOut (s0 : CGState) : CGState :=
  ((List.range' 1 25).foldl (fun sr _ => cgStep sr)
    (cgInit s0, ∑ j in Finset.range (cgInit s0).na,
      (cgInit s0).r j * (cgInit s0).r j)).1

/-- `conjugate_gradient` (lines 154-242): initialize, run the fixed 25
inner iterations, then recompute `r = A·z` from the final iterate and
return `sqrt(Σ (x[j] - r[j])²)` (lines 220-241). -/
noncomputable def conjugate_gradient (s0 : CGState) : CGState × ℝ :=
  let s2 := cgLoopOut s0
  let r2 := fun j => if j < s2.na then matvecRow s2 s2.z j else s2.r j
  let sum := ∑ j in Finset.range s2.na, (s2.x j - r2 j) * (s2.x j - r2 j)
  ({ s2 with r := r2 }, Real.sqrt sum)

/-- Folding a step function that ignores the list elements is iteration. -/
lemma foldl_const_iterate {α β : Type} (f : α → α) :
    ∀ (l : List β) (b : α), l.foldl (fun x _ => f x) b = f^[l.length] b := by
  intro l
  induction l with
  | nil => intro b; rfl
  | cons hd tl ih =>
    intro b
    rw [List.foldl_cons, ih (f b), List.length_cons, Function.iterate_succ_apply]

/-- `cgStep` never writes the matrix arrays, `x`, or `na`. -/
lemma cgStep_frame (sr : CGState × ℝ) :
    (cgStep sr).1.a = sr.1.a ∧ (cgStep sr).1.colidx = sr.1.colidx
      ∧ (cgStep sr).1.rowstr = sr.1.rowstr ∧ (cgStep sr).1.x = sr.1.x
      ∧ (cgStep sr).1.na = sr.1.na :=
  ⟨rfl, rfl, rfl, rfl, rfl⟩

/-- Iterating `cgStep` never writes the matrix arrays, `x`, or `na`. -/
lemma cgStep_iterate_frame (k : ℕ) :
    ∀ sr : CGState × ℝ,
      (cgStep^[k] sr).1.a = sr.1.a ∧ (cgStep^[k] sr).1.colidx = sr.1.colidx
        ∧ (cgStep^[k] sr).1.rowstr = sr.1.rowstr ∧ (cgStep^[k] sr).1.x = sr.1.x
        ∧ (cgStep^[k] sr).1.na = sr.1.na := by
  induction k with
  | zero => intro sr; exact ⟨rfl, rfl, rfl, rfl, rfl⟩
  | succ k ih =>
    intro sr
    rw [Function.iterate_succ_apply]
    exact ih (cgStep sr)

/-- The loop output equals iterating `cgStep` exactly 25 times, and its
matrix fields, `x` and `na` are those of the input state. -/
lemma cgLoopOut_spec (s : CGState) :
    cgLoopOut s
        = (cgStep^[25] (cgInit s, ∑ j in Finset.range (cgInit s).na,
            (cgInit s).r j * (cgInit s).r j)).1
      ∧ (cgLoopOut s).a = s.a ∧ (cgLoopOut s).colidx = s.colidx
      ∧ (cgLoopOut s).rowstr = s.rowstr ∧ (cgLoopOut s).x = s.x
      ∧ (cgLoopOut s).na = s.na := by
  have hiter : cgLoopOut s
      = (cgStep^[25] (cgInit s, ∑ j in Finset.range (cgInit s).na,
          (cgInit s).r j * (cgInit s).r j)).1 := by
    rw [cgLoopOut, foldl_const_iterate, List.length_range']
  have h := cgStep_iterate_frame 25
    (cgInit s, ∑ j in Finset.range (cgInit s).na, (cgInit s).r j * (cgInit s).r j)
  rw [← hiter] at h
  exact ⟨hiter, h.1, h.2.1, h.2.2.1, h.2.2.2.1, h.2.2.2.2⟩

/-- **C9.** Every call to `conjugate_gradient` leaves the CSR matrix
arrays `a`, `colidx`, `rowstr` and the input vector `x` unchanged; only
the work vectors `z`, `p`, `q`, `r` (and the local reduction scalars) are
written. -/
theorem claimC9_conjugate_gradient_frame (s : CGState) :
    (conjugate_gradient s).1.a = s.a ∧ (conjugate_gradient s).1.colidx = s.colidx
      ∧ (conjugate_gradient s).1.rowstr = s.rowstr
      ∧ (conjugate_gradient s).1.x = s.x := by
  obtain ⟨-, ha, hcol, hrow, hx, -⟩ := cgLoopOut_spec s
  exact ⟨ha, hcol, hrow, hx⟩

/-- **C2.** For every state (assembled CSR matrix and input vector `x`),
`conjugate_gradient` runs exactly 25 inner iterations — its final iterate
is `cgStep` iterated 25 times from the initialized state, with no
convergence exit — and the value it returns is
`sqrt(Σ_{j<na} (x[j] - (A·z)[j])²)`, where `A·z` is recomputed from the
matrix and the final iterate `z` (not read from the iterate's internal
residual vector). -/
theorem claimC2_conjugate_gradient_residual (s : CGState) :
    (conjugate_gradient s).1.z
        = (cgStep^[25]
            (cgInit s, ∑ j in Finset.range (cgInit s).na,
              (cgInit s).r j * (cgInit s).r j)).1.z
      ∧ (conjugate_gradient s).2
          = Real.sqrt (∑ j in Finset.range s.na,
              (s.x j - matvecRow s ((conjugate_gradient s).1.z) j)
                * (s.x j - matvecRow s ((conjugate_gradient s).1.z) j)) := by
  obtain ⟨hiter, ha, hcol, hrow, hx, hna⟩ := cgLoopOut_spec s
  have hz : (conjugate_gradient s).1.z = (cgLoopOut s).z := rfl
  have hval : (conjugate_gradient s).2
      = Real.sqrt (∑ j in Finset.range (cgLoopOut s).na,
          ((cgLoopOut s).x j
              - (if j < (cgLoopOut s).na then
                  matvecRow (cgLoopOut s) ((cgLoopOut s).z) j else (cgLoopOut s).r j))
            * ((cgLoopOut s).x j
              - (if j < (cgLoopOut s).na then
                  matvecRow (cgLoopOut s) ((cgLoopOut s).z) j else (cgLoopOut s).r j))) :=
    rfl
  refine ⟨by rw [hz, hiter], ?_⟩
  rw [hval, hz, hna, hx]
  congr 1
  refine Finset.sum_congr rfl ?_
  intro j hj
  rw [Finset.mem_range] at hj
  rw [if_pos hj]
  have hmv : matvecRow (cgLoopOut s) ((cgLoopOut s).z) j
      = matvecRow s ((cgLoopOut s).z) j := by
    rw [matvecRow, matvecRow, ha, hcol, hrow]
  rw [hmv]

/-! ## Driver argument handling

`main` in `master_t_parallel_c/CG/main.cpp` (lines 25-115) and `main` in
`NPB-OLD/NPB-OMP/CG/cg.cpp` (lines 220-234).  Only the control flow that
decides between aborting and running is modelled; `atoi` is represented
by the integer it returns (it yields `0` on malformed input, so "invalid
or non-positive" is exactly `parsed ≤ 0`), and printing is not modelled
— both drivers do print a diagnostic on a bad thread count. -/

/-- What a driver does after argument handling. -/
inductive DriverAction where
  | exitEarly (code : ℤ)
  | run (threads : ℤ)
deriving DecidableEq

/-- The classes accepted by the `switch` in main.cpp lines 61-115. -/
def validClass (c : Char) : Bool :=
  c = 'S' || c = 'W' || c = 'A' || c = 'B' || c = 'C' || c = 'D' || c = 'E'

/-- The master driver (main.cpp lines 25-115): a non-positive thread
argument prints "Invalid thread count" and falls back to the
auto-detected default (`npb::utils::get_num_threads()`), after which the
run proceeds; the only early exit (status 1) is an invalid problem
class. -/
def masterDriver (problemClass : Char) (threadArg : Option ℤ) (defaultThreads : ℤ) :
    DriverAction :=
  let t := match threadArg with
    | none => defaultThreads
    | some parsed => if parsed ≤ 0 then defaultThreads else parsed
  if validClass problemClass then .run t else .exitEarly 1

/-- The NPB-OLD driver (cg.cpp lines 220-234): wrong argument count or a
non-positive thread count exits with status 1 before any computation. -/
def oldDriver (argc : ℕ) (threadArg : ℤ) : DriverAction :=
  if argc ≠ 3 then .exitEarly 1
  else if threadArg ≤ 0 then .exitEarly 1
  else .run threadArg

/-- **C8, counterexample.** With class `S` and thread argument `0` (the
`atoi` result for `"0"` or any malformed string), the master driver does
not exit: it proceeds to run with the default thread count (here 4), so
the claim that the program "exits with a nonzero status before any
computation" fails on `master_t_parallel_c/CG/main.cpp` lines 30-37. -/
theorem claimC8_counterexample :
    masterDriver 'S' (some 0) 4 = DriverAction.run 4
      ∧ ¬ ∃ code, masterDriver 'S' (some 0) 4 = DriverAction.exitEarly code := by
  constructor
  · decide
  · intro ⟨code, h⟩
    rw [show masterDriver 'S' (some 0) 4 = DriverAction.run 4 from by decide] at h
    exact absurd h (by simp)

/-- **C8, amended.** On a non-positive (or malformed, hence `atoi = 0`)
thread-count argument, the NPB-OLD driver exits with status 1 before any
computation, while the master driver prints the error but substitutes the
auto-detected default thread count and proceeds with the run. -/
theorem claimC8_thread_count_amended (t d : ℤ) (c : Char)
    (ht : t ≤ 0) (hc : validClass c = true) :
    oldDriver 3 t = DriverAction.exitEarly 1
      ∧ masterDriver c (some t) d = DriverAction.run d := by
  constructor
  · rw [oldDriver, if_neg (by simp), if_pos ht]
  · rw [masterDriver]
    simp only [if_pos ht, hc]
    simp

/-- Witness for the amended C8 at `t = 0`, class `S`, default 4. -/
theorem claimC8_thread_count_amended_witness :
    oldDriver 3 0 = DriverAction.exitEarly 1
      ∧ masterDriver 'S' (some 0) 4 = DriverAction.run 4 :=
  claimC8_thread_count_amended 0 4 'S' (by decide) (by decide)

/-! ## Sparse matrix assembly

`SparseMatrix::sparse_matrix_assembly` (cg.cpp lines 299-411) and
`SparseMatrix::make_matrix` (lines 244-297).  `int64_t`-indexed buffers
become total functions `ℤ → α` (the caller's vectors are
zero-initialized by `resize`); the pass-1 counting loop and its prefix
sum become the sums they compute; the insertion scan, its shift loop and
the compaction copy loop are recursive functions mirroring the loops,
with the scan bounded by its loop bound `rowstr[j+1] - rowstr[j]` (a
fall-through of all three cases is the `none` that becomes the fatal
"internal error").  Values live in a ring `V`; the source instantiates
`V = double` with `ratio = pow(rcond, 1.0/n)`, which the `ℝ`-level
`make_matrix` below passes explicitly since `rpow` lives outside the
generic ring. -/

/-- The pass-1 accumulation (lines 315-320): the final value of
`rowstr[j]` after `rowstr[acol[i][nza] + 1] += arow[i]` over all `i`,
`nza`. -/
def rowCount (n : ℕ) (arow : ℤ → ℤ) (acol : ℤ → ℤ → ℤ) (j : ℤ) : ℤ :=
  ∑ i in Finset.range n, ∑ t in Finset.range (arow (i : ℤ)).toNat,
    if acol (i : ℤ) (t : ℤ) + 1 = j then arow (i : ℤ) else 0

/-- The prefix-summed `rowstr` of pass 1 (lines 322-325):
`rowstr[0] = 0`, `rowstr[j] = Σ_{1 ≤ t ≤ j} count[t]`. -/
def rowstrF (n : ℕ) (arow : ℤ → ℤ) (acol : ℤ → ℤ → ℤ) (j : ℤ) : ℤ :=
  ∑ t in Finset.range j.toNat, rowCount n arow acol ((t : ℤ) + 1)

/-- The shift loop (lines 361-366): `for (kk = hi-2; kk >= lo; kk--)
if (colidx[kk] > -1) { a[kk+1] = a[kk]; colidx[kk+1] = colidx[kk]; }`.
`m` is the number of remaining iterations, so the current index is
`kk = lo + m - 1`; the caller passes `m = (hi - 1 - lo).toNat`, making
the first index `hi - 2`. -/
def shiftTail {V : Type} (lo : ℤ) : ℕ → (ℤ → ℤ) → (ℤ → V) → (ℤ → ℤ) × (ℤ → V)
  | 0, ci, a => (ci, a)
  | m + 1, ci, a =>
    if ci (lo + m) > -1 then
      shiftTail lo m (Function.update ci (lo + m + 1) (ci (lo + m)))
        (Function.update a (lo + m + 1) (a (lo + m)))
    else shiftTail lo m ci a

/-- The insertion scan (lines 356-380): walk `k` from `rowstr[j]` toward
`rowstr[j+1]`; shift-and-insert before a larger column, fill an empty
`-1` slot, or merge into an equal column (returning the merge flag for
`nzloc`).  `m` is the remaining loop bound `hi - k`; exhausting it is the
fall-through with `inserted == false`. -/
def scanInsert {V : Type} [Zero V] : ℕ → (ℤ → ℤ) → (ℤ → V) → ℤ → ℤ → ℤ →
    Option ((ℤ → ℤ) × (ℤ → V) × ℤ × Bool)
  | 0, _, _, _, _, _ => none
  | m + 1, ci, a, k, hi, jcol =>
    if ci k > jcol then
      some (Function.update (shiftTail k (hi - 1 - k).toNat ci a).1 k jcol,
        Function.update (shiftTail k (hi - 1 - k).toNat ci a).2 k 0, k, false)
    else if ci k = -1 then
      some (Function.update ci k jcol, a, k, false)
    else if ci k = jcol then
      some (ci, a, k, true)
    else scanInsert m ci a (k + 1) hi jcol

/-- The mutable state of pass 2: the value and column buffers and the
per-row duplicate counters `nzloc`. -/
structure AsmState (V : Type) where
  a : ℤ → V
  colidx : ℤ → ℤ
  nzloc : ℤ → ℤ

/-- One insertion (lines 348-386): scan row `j`'s slice for `jcol`; a
fall-through throws (line 383), a merge bumps `nzloc[j]`, and in every
case `a[k] += va` at the found slot. -/
def insertEntry {V : Type} [Ring V] (rowstr : ℤ → ℤ) (st : AsmState V)
    (j jcol : ℤ) (va : V) : Except String (AsmState V) :=
  match scanInsert (rowstr (j + 1) - rowstr j).toNat st.colidx st.a
      (rowstr j) (rowstr (j + 1)) jcol with
  | none => .error "Internal error in sparse assembly"
  | some (ci, a2, k, merged) =>
    .ok { a := Function.update a2 k (a2 k + va),
          colidx := ci,
          nzloc := if merged then Function.update st.nzloc j (st.nzloc j + 1)
                   else st.nzloc }

/-- The innermost pass-2 loop (lines 348-387): for each `nzrow` of
pattern `i`, build `va = aelt[i][nzrow] * scale`, add `rcond - shift` on
the diagonal (`jcol == j && j == i`), and insert into row `j`. -/
def sparseInner {V : Type} [Ring V] (rowstr : ℤ → ℤ) (arow : ℤ → ℤ)
    (acol : ℤ → ℤ → ℤ) (aelt : ℤ → ℤ → V) (rcond shift : V)
    (i j : ℤ) (scale : V) (st : AsmState V) : Except String (AsmState V) :=
  (List.range (arow i).toNat).foldlM (fun (st : AsmState V) (nzrow : ℕ) =>
    insertEntry rowstr st j (acol i (nzrow : ℤ))
      (aelt i (nzrow : ℤ) * scale
        + (if acol i (nzrow : ℤ) = j ∧ j = i then rcond - shift else 0))) st

/-- The middle pass-2 loop (lines 344-388): for each `nza` of pattern
`i`, the target row is `j = acol[i][nza]` and
`scale = size * aelt[i][nza]`. -/
def sparseMid {V : Type} [Ring V] (rowstr : ℤ → ℤ) (arow : ℤ → ℤ)
    (acol : ℤ → ℤ → ℤ) (aelt : ℤ → ℤ → V) (rcond shift : V)
    (i : ℤ) (size : V) (st : AsmState V) : Except String (AsmState V) :=
  (List.range (arow i).toNat).foldlM (fun (st : AsmState V) (nza : ℕ) =>
    sparseInner rowstr arow acol aelt rcond shift i (acol i (nza : ℤ))
      (size * aelt i (nza : ℤ)) st) st

/-- Pass 2 (lines 340-390): iterate the patterns in row order with the
geometric conditioning factor `size`, starting at `1` and multiplied by
`ratio` after each pattern. -/
def sparsePass2 {V : Type} [Ring V] (n : ℕ) (rowstr : ℤ → ℤ) (arow : ℤ → ℤ)
    (acol : ℤ → ℤ → ℤ) (aelt : ℤ → ℤ → V) (rcond shift ratio : V)
    (st0 : AsmState V) : Except String (AsmState V) :=
  ((List.range n).foldlM (fun (pr : AsmState V × V) (i : ℕ) => do
      let st2 ← sparseMid rowstr arow acol aelt rcond shift (i : ℤ) pr.2 pr.1
      pure (st2, pr.2 * ratio)) (st0, (1 : V))).map Prod.fst

/-- The cumulative duplicate counts (lines 392-394): after the in-place
prefix loop, `nzloc[j] = Σ_{t ≤ j} nzloc_orig[t]`. -/
def nzlocCum (nzloc : ℤ → ℤ) (j : ℤ) : ℤ :=
  ∑ t in Finset.range (j + 1).toNat, nzloc (t : ℤ)

/-- The copy loop of the compaction (lines 401-405): `j2 - j1` slots are
copied from `nza = src` onward to `j1` onward, reading the current
buffers as the C loop does. -/
def compactMove {V : Type} (j1 j2 src : ℤ) (p : (ℤ → V) × (ℤ → ℤ)) :
    (ℤ → V) × (ℤ → ℤ) :=
  (List.range (j2 - j1).toNat).foldl (fun (p : (ℤ → V) × (ℤ → ℤ)) (t : ℕ) =>
    (Function.update p.1 (j1 + (t : ℤ)) (p.1 (src + (t : ℤ))),
     Function.update p.2 (j1 + (t : ℤ)) (p.2 (src + (t : ℤ))))) p

/-- The compaction pass (lines 396-406): each row's live entries are
shifted left past the merged slots. -/
def sparseCompact {V : Type} (n : ℕ) (rowstr cum : ℤ → ℤ)
    (p : (ℤ → V) × (ℤ → ℤ)) : (ℤ → V) × (ℤ → ℤ) :=
  (List.range n).foldl (fun (p : (ℤ → V) × (ℤ → ℤ)) (j : ℕ) =>
    let j1 := if (j : ℤ) > 0 then rowstr (j : ℤ) - cum ((j : ℤ) - 1) else 0
    let j2 := rowstr ((j : ℤ) + 1) - cum (j : ℤ)
    compactMove j1 j2 (rowstr (j : ℤ)) p) p

/-- The final `rowstr` adjustment (lines 408-410):
`for (j = 1; j <= nrows; j++) rowstr[j] -= nzloc[j-1]`. -/
def rowstrFinal (n : ℕ) (rowstr cum : ℤ → ℤ) (j : ℤ) : ℤ :=
  if 1 ≤ j ∧ j ≤ n then rowstr j - cum (j - 1) else rowstr j

/-- `sparse_matrix_assembly` (lines 299-411) with `firstrow = 0`,
`lastrow = n-1` (so `nrows = n`) as `make_matrix` calls it.  The guard is
the source's `nza_final = rowstr[nrows] - 1; if (nza_final > nz) throw`.
The returned column and row-pointer arrays are read back as lists
(`rowstr[0..n]`, and the `rowstr[n]` live column entries); the value
buffer is returned as the function it is. -/
def sparse (V : Type) [Ring V] (n : ℕ) (nz : ℤ) (arow : ℤ → ℤ)
    (acol : ℤ → ℤ → ℤ) (aelt : ℤ → ℤ → V) (rcond shift ratio : V) :
    Except String ((ℤ → V) × List ℤ × List ℤ) :=
  let rowstr := rowstrF n arow acol
  if rowstr n - 1 > nz then
    .error "Space for matrix elements exceeded in sparse assembly"
  else
    match sparsePass2 n rowstr arow acol aelt rcond shift ratio
        { a := fun _ => 0,
          colidx := fun k => if 0 ≤ k ∧ k < rowstr n then -1 else 0,
          nzloc := fun _ => 0 } with
    | .error e => .error e
    | .ok st =>
      let cum := nzlocCum st.nzloc
      let pr := sparseCompact n rowstr cum (st.a, st.colidx)
      let rs := rowstrFinal n rowstr cum
      .ok (pr.1,
        (List.range (rs n).toNat).map (fun k : ℕ => pr.2 (k : ℤ)),
        (List.range (n + 1)).map (fun j : ℕ => rs (j : ℤ)))

/-- The projections of a successful assembly: the stored column indices
and the row pointers (empty on the error paths). -/
def csrCols {V : Type} (r : Except String ((ℤ → V) × List ℤ × List ℤ)) : List ℤ :=
  match r with
  | .ok out => out.2.1
  | .error _ => []

/-- The row-pointer list of a successful assembly. -/
def csrRows {V : Type} (r : Except String ((ℤ → V) × List ℤ × List ℤ)) : List ℤ :=
  match r with
  | .ok out => out.2.2
  | .error _ => []

/-- The `nn1` doubling loop of `make_matrix` (lines 258-261): the least
power of two that is `≥ na` (starting from 1). -/
def nn1Of (na : ℕ) : ℤ := 2 ^ Nat.clog 2 na

/-- The pattern-building loop of `make_matrix` (lines 256-277): one
warm-up `randlc` call, then for each `iouter` a fresh `vc`/`ivc` pair of
capacity `nonzer + 1`, a `generate_sparse_vector` run for `nonzer`
entries, a `vector_set` forcing index `iouter + 1` to `0.5`, and the row
pattern `acol[iouter][..] = ivc[..] - 1`, `aelt[iouter][..] = vc[..]`
for the final `nzv` entries. -/
def makePatterns (na nonzer : ℕ) (fuel : ℕ) (s0 : ℚ) :
    Except String (List (List ℤ × List ℚ) × ℚ) :=
  (List.range na).foldlM (fun (acc : List (List ℤ × List ℚ) × ℚ) (iouter : ℕ) => do
      let g ← generate_sparse_vector (na : ℤ) nonzer (nn1Of na) fuel acc.2
          (List.replicate (nonzer + 1) 0) (List.replicate (nonzer + 1) 0) 0
      let w ← vector_set g.1 g.2.1 nonzer ((iouter : ℤ) + 1) (1 / 2)
      pure (acc.1 ++ [((w.2.1.take w.2.2).map (fun c => c - 1), w.1.take w.2.2)],
        g.2.2))
    ([], (randlc s0 amult).1)

/-- Row sizes `arow` read off the built patterns. -/
def arowOf (pats : List (List ℤ × List ℚ)) (i : ℤ) : ℤ :=
  ((pats.getD i.toNat ([], [])).1.length : ℤ)

/-- Column entries `acol` read off the built patterns. -/
def acolOf (pats : List (List ℤ × List ℚ)) (i t : ℤ) : ℤ :=
  (pats.getD i.toNat ([], [])).1.getD t.toNat 0

/-- Value entries `aelt` read off the built patterns. -/
def aeltOf (pats : List (List ℤ × List ℚ)) (i t : ℤ) : ℚ :=
  (pats.getD i.toNat ([], [])).2.getD t.toNat 0

/-- `make_matrix` (lines 244-297): build the patterns from the module
seed `tran = 314159265.0`, then assemble with `nz = na*(nonzer+1)²`,
`ratio = pow(rcond, 1.0/na)`. -/
noncomputable def make_matrix (na nonzer : ℕ) (rcond shift : ℝ) (fuel : ℕ) :
    Except String ((ℤ → ℝ) × List ℤ × List ℤ) :=
  match makePatterns na nonzer fuel tran0 with
  | .error e => .error e
  | .ok (pats, _) =>
    sparse ℝ na ((na : ℤ) * ((nonzer : ℤ) + 1) ^ 2) (arowOf pats) (acolOf pats)
      (fun i t => ((aeltOf pats i t : ℚ) : ℝ)) rcond shift
      (rcond ^ ((1 : ℝ) / (na : ℝ)))

/-- **C5 (code bug).** The capacity guard of `sparse_matrix_assembly`
computes `nza_final = rowstr[nrows] - 1` (line 326) and throws only when
`nza_final > nz`, i.e. when the required total exceeds `nz + 1`.  With a
single one-entry pattern (`n = 1`, `arow = [1]`, `acol = [[0]]`) and a
buffer capacity `nz = 0`, pass 1 requires `rowstr[n] = 1` storage slots —
exceeding the capacity — yet the guard `1 - 1 > 0` is false and the
assembly proceeds to completion instead of failing (in the C++ this
writes one element past the end of the `nz`-sized buffers `a`/`colidx`).
The claim (and the spec) require the fatal path whenever the total
exceeds `nz`; the code misses the boundary case `total = nz + 1`, an
off-by-one inherited from the 1-based Fortran `rowstr`. -/
theorem claimC5_capacity_guard_off_by_one :
    rowstrF 1 (fun _ => 1) (fun _ _ => 0) 1 = 1
      ∧ (1 : ℤ) > 0
      ∧ (sparse ℚ 1 0 (fun _ => 1) (fun _ _ => 0) (fun _ _ => 0) 0 0 0).isOk = true :=
  ⟨by decide, by decide, by rfl⟩

/-! ## Correctness of the insertion scan

The abstraction of one row's slice: a strictly sorted list of the
distinct columns inserted so far, stored as a prefix, with `-1` in the
free slots behind it. -/

/-- Insertion into a sorted list, merging an existing equal element: the
abstract effect of one `scanInsert`. -/
def sortedInsert (x : ℤ) : List ℤ → List ℤ
  | [] => [x]
  | y :: t => if x < y then x :: y :: t else if x = y then y :: t
              else y :: sortedInsert x t

/-- Closed form of the shift loop on the column buffer: slot `q` in
`[lo+1, lo+m]` receives the old occupant of `q-1` when that slot is
occupied; nothing else changes.  (The downward order means every read
sees the original buffer.) -/
lemma shiftTail_closed {V : Type} : ∀ (m : ℕ) (ci : ℤ → ℤ) (a : ℤ → V) (lo q : ℤ),
    (shiftTail lo m ci a).1 q
      = if lo + 1 ≤ q ∧ q ≤ lo + m ∧ ci (q - 1) > -1 then ci (q - 1) else ci q := by
  intro m
  induction m with
  | zero =>
    intro ci a lo q
    rw [shiftTail, if_neg (by push_cast; omega)]
  | succ m ih =>
    intro ci a lo q
    rw [shiftTail]
    by_cases hocc : ci (lo + m) > -1
    · rw [if_pos hocc, ih]
      by_cases h1 : q = lo + m + 1
      · subst h1
        have e : lo + (m : ℤ) + 1 - 1 = lo + m := by ring
        rw [if_neg (by omega)]
        rw [Function.update_apply, if_pos rfl]
        rw [if_pos (by push_cast; exact ⟨by omega, by omega, by rw [e]; exact hocc⟩)]
        rw [e]
      · have hq : Function.update ci (lo + m + 1) (ci (lo + m)) q = ci q :=
          Function.update_noteq h1 _ _
        by_cases h2 : q = lo + m + 2
        · rw [if_neg (by omega), hq, if_neg (by push_cast; omega)]
        · have hq1 : Function.update ci (lo + m + 1) (ci (lo + m)) (q - 1) = ci (q - 1) :=
            Function.update_noteq (by omega) _ _
          rw [hq, hq1]
          push_cast
          split_ifs <;> first | rfl | omega
    · rw [if_neg hocc, ih]
      by_cases h1 : q = lo + m + 1
      · subst h1
        have e : lo + (m : ℤ) + 1 - 1 = lo + m := by ring
        rw [if_neg (by omega), if_neg ?_]
        intro hcon
        rw [e] at hcon
        exact absurd hcon.2.2 hocc
      · push_cast
        split_ifs <;> first | rfl | omega

lemma sortedInsert_length (x : ℤ) : ∀ l : List ℤ, List.Sorted (· < ·) l →
    (sortedInsert x l).length = if x ∈ l then l.length else l.length + 1 := by
  intro l
  induction l with
  | nil => intro _; simp [sortedInsert]
  | cons y t ih =>
    intro hs
    rw [List.sorted_cons] at hs
    obtain ⟨hy, ht⟩ := hs
    rw [sortedInsert]
    rcases lt_trichotomy x y with h | h | h
    · rw [if_pos h, if_neg]
      · simp
      · intro hmem
        rcases List.mem_cons.mp hmem with h2 | h2
        · omega
        · have := hy x h2
          omega
    · rw [if_neg (by omega), if_pos h, if_pos (by simp [h])]
    · rw [if_neg (by omega), if_neg (by omega)]
      by_cases hmem : x ∈ t
      · rw [List.length_cons, ih ht, if_pos hmem, if_pos (by simp [hmem]),
          List.length_cons]
      · rw [List.length_cons, ih ht, if_neg hmem, if_neg (by
          intro hc
          rcases List.mem_cons.mp hc with h2 | h2
          · omega
          · exact hmem h2), List.length_cons]

lemma sortedInsert_mem (x : ℤ) : ∀ (l : List ℤ) (c : ℤ),
    c ∈ sortedInsert x l → c = x ∨ c ∈ l := by
  intro l
  induction l with
  | nil => intro c hc; simp [sortedInsert] at hc; exact Or.inl hc
  | cons y t ih =>
    intro c hc
    rw [sortedInsert] at hc
    by_cases h1 : x < y
    · rw [if_pos h1] at hc
      rcases List.mem_cons.mp hc with h | h
      · exact Or.inl h
      · exact Or.inr h
    · rw [if_neg h1] at hc
      by_cases h2 : x = y
      · rw [if_pos h2] at hc
        exact Or.inr hc
      · rw [if_neg h2] at hc
        rcases List.mem_cons.mp hc with h | h
        · exact Or.inr (by simp [h])
        · rcases ih c h with h3 | h3
          · exact Or.inl h3
          · exact Or.inr (List.mem_cons_of_mem y h3)

lemma sortedInsert_sorted (x : ℤ) : ∀ l : List ℤ,
    List.Sorted (· < ·) l → List.Sorted (· < ·) (sortedInsert x l) := by
  intro l
  induction l with
  | nil => intro _; simp [sortedInsert]
  | cons y t ih =>
    intro hs
    rw [List.sorted_cons] at hs
    obtain ⟨hy, ht⟩ := hs
    rw [sortedInsert]
    by_cases h1 : x < y
    · rw [if_pos h1, List.sorted_cons]
      refine ⟨?_, by rw [List.sorted_cons]; exact ⟨hy, ht⟩⟩
      intro b hb
      rcases List.mem_cons.mp hb with h | h
      · omega
      · have := hy b h
        omega
    · rw [if_neg h1]
      by_cases h2 : x = y
      · rw [if_pos h2, List.sorted_cons]
        exact ⟨hy, ht⟩
      · rw [if_neg h2, List.sorted_cons]
        refine ⟨?_, ih ht⟩
        intro b hb
        rcases sortedInsert_mem x t b hb with h | h
        · omega
        · exact hy b h

lemma getD_mem_of_lt (l : List ℤ) (t : ℕ) (h : t < l.length) : l.getD t 0 ∈ l := by
  rw [List.getD_eq_getElem l 0 h]
  exact l.getElem_mem h

/-- Row slice `[lo, hi)` of the column buffer holds exactly the list `l`
as its occupied prefix, with `-1` in every slot behind it. -/
def SegIs (ci : ℤ → ℤ) (lo hi : ℤ) (l : List ℤ) : Prop :=
  (∀ t : ℕ, t < l.length → ci (lo + (t : ℤ)) = l.getD t 0)
    ∧ ∀ k : ℤ, lo + l.length ≤ k → k < hi → ci k = -1

/-- The invariant of one row's slice during pass 2: its occupied prefix
is the strictly sorted list of the distinct nonnegative columns inserted
so far, and it fits the slice. -/
def RowOk (ci : ℤ → ℤ) (lo hi : ℤ) (l : List ℤ) : Prop :=
  List.Sorted (· < ·) l ∧ (∀ c ∈ l, 0 ≤ c) ∧ lo + l.length ≤ hi
    ∧ SegIs ci lo hi l

/-- Main correctness of the insertion scan: on a well-formed slice with
either the column already present or a free slot remaining, the scan
always succeeds (no fall-through), reports a merge exactly for a present
column, leaves the slice well-formed for `sortedInsert jcol l`, and
writes nothing outside the slice. -/
lemma scanInsert_spec {V : Type} [Zero V] :
    ∀ (l : List ℤ) (ci : ℤ → ℤ) (a : ℤ → V) (lo hi jcol : ℤ),
      RowOk ci lo hi l → 0 ≤ jcol →
      (jcol ∈ l ∨ lo + l.length < hi) →
      ∃ ci2 a2 k merged,
        scanInsert (hi - lo).toNat ci a lo hi jcol = some (ci2, a2, k, merged)
          ∧ (merged = true ↔ jcol ∈ l)
          ∧ RowOk ci2 lo hi (sortedInsert jcol l)
          ∧ ∀ q, q < lo ∨ hi ≤ q → ci2 q = ci q := by
  intro l
  induction l with
  | nil =>
    intro ci a lo hi jcol hrow hj hroom
    obtain ⟨hsort, hmem, hlen, hseg⟩ := hrow
    have hlth : lo < hi := by
      rcases hroom with h | h
      · exact absurd h (List.not_mem_nil jcol)
      · simpa using h
    have hempty : ci lo = -1 := hseg.2 lo (by simp) hlth
    obtain ⟨m, hm⟩ : ∃ m, (hi - lo).toNat = m + 1 := ⟨(hi - lo).toNat - 1, by omega⟩
    rw [hm, scanInsert, if_neg (by omega), if_pos hempty]
    refine ⟨_, _, _, _, rfl, by simp, ?_, ?_⟩
    · refine ⟨by simp [sortedInsert], by simp [sortedInsert]; omega, ?_, ?_, ?_⟩
      · simp [sortedInsert]
        omega
      · intro t ht
        simp [sortedInsert] at ht ⊢
        subst ht
        simp [Function.update_apply]
      · intro k hk1 hk2
        simp [sortedInsert] at hk1
        rw [Function.update_noteq (by omega)]
        exact hseg.2 k (by simp; omega) hk2
    · intro q hq
      exact Function.update_noteq (by omega) _ _
  | cons c l2 ih =>
    intro ci a lo hi jcol hrow hj hroom
    obtain ⟨hsort, hmem, hlen, hseg⟩ := hrow
    have hc0 : ci lo = c := by
      have := hseg.1 0 (by simp)
      simpa using this
    have hcge : 0 ≤ c := hmem c (by simp)
    have hlth : lo < hi := by
      have := hlen
      simp [List.length_cons] at this
      omega
    obtain ⟨m, hm⟩ : ∃ m, (hi - lo).toNat = m + 1 := ⟨(hi - lo).toNat - 1, by omega⟩
    rw [List.sorted_cons] at hsort
    obtain ⟨hcall, hsort2⟩ := hsort
    rcases lt_trichotomy jcol c with hlt | heq | hgt
    · -- insert before the head: the shift-and-insert branch
      have hnotmem : jcol ∉ c :: l2 := by
        intro hcon
        rcases List.mem_cons.mp hcon with h | h
        · omega
        · have := hcall jcol h
          omega
      have hroom2 : lo + ((c :: l2).length : ℤ) < hi := by
        rcases hroom with h | h
        · exact absurd h hnotmem
        · exact h
      rw [hm, scanInsert, if_pos (by omega)]
      refine ⟨_, _, _, _, rfl, by simp [hnotmem], ?_, ?_⟩
      · have hins : sortedInsert jcol (c :: l2) = jcol :: c :: l2 := by
          rw [sortedInsert, if_pos hlt]
        rw [hins]
        have hLl : ((c :: l2).length : ℤ) = (l2.length : ℤ) + 1 := by
          simp
        refine ⟨?_, ?_, ?_, ?_, ?_⟩
        · rw [List.sorted_cons]
          refine ⟨?_, by rw [List.sorted_cons]; exact ⟨hcall, hsort2⟩⟩
          intro b hb
          rcases List.mem_cons.mp hb with h | h
          · omega
          · have := hcall b h
            omega
        · intro b hb
          rcases List.mem_cons.mp hb with h | h
          · omega
          · exact hmem b h
        · simp at hroom2 ⊢
          omega
        · intro t ht
          simp only [List.length_cons] at ht
          match t with
          | 0 =>
            simp [Function.update_apply]
          | Nat.succ t2 =>
            rw [Function.update_noteq (by push_cast; omega)]
            rw [shiftTail_closed]
            rw [if_pos ?side]
            case side =>
              refine ⟨by push_cast; omega, ?_, ?_⟩
              · push_cast
                simp at hroom2
                omega
              · have e : lo + ((t2 + 1 : ℕ) : ℤ) - 1 = lo + (t2 : ℤ) := by
                  push_cast; ring
                rw [e]
                by_cases h2 : t2 < (c :: l2).length
                · rw [hseg.1 t2 h2]
                  have : 0 ≤ (c :: l2).getD t2 0 := by
                    apply hmem
                    exact getD_mem_of_lt _ _ h2
                  omega
                · omega
            have e : lo + ((t2 + 1 : ℕ) : ℤ) - 1 = lo + (t2 : ℤ) := by
              push_cast; ring
            rw [e, hseg.1 t2 (by omega), List.getD_cons_succ]
        · intro k hk1 hk2
          rw [Function.update_noteq ?ne]
          case ne =>
            simp at hk1
            omega
          rw [shiftTail_closed]
          have hkm1 : ci (k - 1) = -1 := by
            apply hseg.2
            · simp at hk1 ⊢
              omega
            · omega
          rw [if_neg (by rw [hkm1]; intro hcon; omega)]
          apply hseg.2 k (by simp at hk1 ⊢; omega) hk2
      · intro q hq
        rw [Function.update_noteq (by omega)]
        rw [shiftTail_closed]
        rw [if_neg (by omega)]
    · -- merge with the head
      rw [hm, scanInsert, if_neg (by omega), if_neg (by omega), if_pos (by omega)]
      refine ⟨_, _, _, _, rfl, by simp [heq], ?_, fun q _ => rfl⟩
      have hins : sortedInsert jcol (c :: l2) = c :: l2 := by
        rw [sortedInsert, if_neg (by omega), if_pos heq]
      rw [hins]
      exact ⟨by rw [List.sorted_cons]; exact ⟨hcall, hsort2⟩, hmem, hlen, hseg⟩
    · -- head smaller: continue the scan on the tail
      have hm2 : m = (hi - (lo + 1)).toNat := by omega
      have hrow2 : RowOk ci (lo + 1) hi l2 := by
        refine ⟨hsort2, fun b hb => hmem b (List.mem_cons_of_mem c hb), ?_, ?_, ?_⟩
        · simp at hlen ⊢
          omega
        · intro t ht
          have := hseg.1 (t + 1) (by simp; omega)
          rw [show lo + ((t + 1 : ℕ) : ℤ) = lo + 1 + (t : ℤ) by push_cast; ring] at this
          rw [this, List.getD_cons_succ]
        · intro k hk1 hk2
          apply hseg.2 k ?_ hk2
          simp at hk1 ⊢
          omega
      have hroom2 : jcol ∈ l2 ∨ lo + 1 + (l2.length : ℤ) < hi := by
        rcases hroom with h | h
        · rcases List.mem_cons.mp h with h2 | h2
          · omega
          · exact Or.inl h2
        · right
          simp at h
          omega
      obtain ⟨ci2, a2, k, merged, hrun, hmerge, hrow3, hframe⟩ :=
        ih ci a (lo + 1) hi jcol hrow2 hj hroom2
      rw [hm, scanInsert, if_neg (by omega), if_neg (by omega), if_neg (by omega),
        hm2]
      refine ⟨ci2, a2, k, merged, hrun, ?_, ?_, ?_⟩
      · rw [hmerge]
        constructor
        · exact fun h => List.mem_cons_of_mem c h
        · intro h
          rcases List.mem_cons.mp h with h2 | h2
          · omega
          · exact h2
      · have hins : sortedInsert jcol (c :: l2) = c :: sortedInsert jcol l2 := by
          rw [sortedInsert, if_neg (by omega), if_neg (by omega)]
        rw [hins]
        obtain ⟨hs3, hm3, hl3, hseg3⟩ := hrow3
        refine ⟨?_, ?_, ?_, ?_, ?_⟩
        · rw [List.sorted_cons]
          refine ⟨?_, hs3⟩
          intro b hb
          rcases sortedInsert_mem jcol l2 b hb with h | h
          · omega
          · exact hcall b h
        · intro b hb
          rcases List.mem_cons.mp hb with h | h
          · omega
          · exact hm3 b h
        · simp at hl3 ⊢
          omega
        · intro t ht
          match t with
          | 0 =>
            have : ci2 lo = ci lo := hframe lo (Or.inl (by omega))
            simp [this, hc0]
          | Nat.succ t2 =>
            have := hseg3.1 t2 (by simp at ht ⊢; omega)
            rw [show lo + 1 + (t2 : ℤ) = lo + ((t2 + 1 : ℕ) : ℤ) by push_cast; ring]
              at this
            rw [this, List.getD_cons_succ]
        · intro k2 hk1 hk2
          apply hseg3.2 k2 ?_ hk2
          simp at hk1 ⊢
          omega
      · intro q hq
        rw [hframe q ?_]
        rcases hq with h | h
        · exact Or.inl (by omega)
        · exact Or.inr h

/-- A `RowOk` judgment only reads its own slice. -/
lemma RowOk_congr (ci ci2 : ℤ → ℤ) (lo hi : ℤ) (l : List ℤ)
    (h : RowOk ci lo hi l) (heq : ∀ q, lo ≤ q → q < hi → ci2 q = ci q) :
    RowOk ci2 lo hi l := by
  obtain ⟨h1, h2, h3, he, hf⟩ := h
  refine ⟨h1, h2, h3, ?_, ?_⟩
  · intro t ht
    rw [heq (lo + t) (by omega) (by have := h3; omega)]
    exact he t ht
  · intro k hk1 hk2
    rw [heq k (by omega) hk2]
    exact hf k hk1 hk2

/-- One insertion on a well-formed slice with room (or a present column)
succeeds, keeps the slice well-formed for the abstractly inserted list,
touches no other slice, and bumps `nzloc[j]` exactly on a merge. -/
lemma insertEntry_spec {V : Type} [Ring V] (R : ℤ → ℤ) (st : AsmState V)
    (j jcol : ℤ) (va : V) (l : List ℤ)
    (hrow : RowOk st.colidx (R j) (R (j + 1)) l)
    (hj : 0 ≤ jcol)
    (hroom : jcol ∈ l ∨ R j + l.length < R (j + 1)) :
    ∃ st2, insertEntry R st j jcol va = .ok st2
      ∧ RowOk st2.colidx (R j) (R (j + 1)) (sortedInsert jcol l)
      ∧ (∀ q, q < R j ∨ R (j + 1) ≤ q → st2.colidx q = st.colidx q)
      ∧ st2.nzloc = (if jcol ∈ l then Function.update st.nzloc j (st.nzloc j + 1)
          else st.nzloc) := by
  obtain ⟨ci2, a2, k, merged, hrun, hmerge, hrow2, hframe⟩ :=
    scanInsert_spec l st.colidx st.a (R j) (R (j + 1)) jcol hrow hj hroom
  rw [insertEntry, hrun]
  refine ⟨_, rfl, hrow2, hframe, ?_⟩
  by_cases hmem : jcol ∈ l
  · rw [if_pos hmem]
    have hm : merged = true := hmerge.mpr hmem
    rw [hm]
    simp
  · rw [if_neg hmem]
    have hm : merged = false := by
      cases hmb : merged
      · rfl
      · exact absurd (hmerge.mp hmb) hmem
    rw [hm]
    simp

/-- The global pass-2 invariant: every row's slice is well formed for its
abstract sorted list `L j`, and the bookkeeping
`|L j| + nzloc j = c j` (with `nzloc j ≥ 0`) ties the distinct-column
count to the number `c j` of insertions performed into row `j`. -/
def AsmInv {V : Type} (R : ℤ → ℤ) (n : ℕ) (st : AsmState V) (L : ℤ → List ℤ)
    (c : ℤ → ℤ) : Prop :=
  ∀ j : ℤ, 0 ≤ j → j < n →
    RowOk st.colidx (R j) (R (j + 1)) (L j)
      ∧ ((L j).length : ℤ) + st.nzloc j = c j
      ∧ 0 ≤ st.nzloc j

/-- Folding a list of insertions into one fixed row `j`: each insertion
finds room because the total insertion count into `j` never exceeds the
slice capacity. -/
lemma insList_spec {V : Type} [Ring V] (R : ℤ → ℤ) (n : ℕ)
    (Rmono : ∀ u v : ℤ, 0 ≤ u → u ≤ v → v ≤ n → R u ≤ R v)
    (j : ℤ) (hj0 : 0 ≤ j) (hjn : j < (n : ℤ))
    (jcolf : ℕ → ℤ) (vaf : ℕ → V) :
    ∀ (ts : List ℕ) (st : AsmState V) (L : ℤ → List ℤ) (c : ℤ → ℤ),
      AsmInv R n st L c →
      (∀ t ∈ ts, 0 ≤ jcolf t) →
      c j + ts.length ≤ R (j + 1) - R j →
      ∃ st2 lj2,
        ts.foldlM (fun st t => insertEntry R st j (jcolf t) (vaf t)) st = .ok st2
          ∧ AsmInv R n st2 (Function.update L j lj2)
              (Function.update c j (c j + ts.length)) := by
  intro ts
  induction ts with
  | nil =>
    intro st L c hinv hcols hcap
    refine ⟨st, L j, rfl, ?_⟩
    rw [Function.update_eq_self]
    simpa using hinv
  | cons t ts2 ih =>
    intro st L c hinv hcols hcap
    obtain ⟨hrowj, hcount, hnz⟩ := hinv j hj0 hjn
    have hroom : jcolf t ∈ L j ∨ R j + ((L j).length : ℤ) < R (j + 1) := by
      right
      simp at hcap
      omega
    obtain ⟨st1, hrun1, hrow1, hframe1, hnzloc1⟩ :=
      insertEntry_spec R st j (jcolf t) (vaf t) (L j) hrowj
        (hcols t (by simp)) hroom
    have hinv1 : AsmInv R n st1
        (Function.update L j (sortedInsert (jcolf t) (L j)))
        (Function.update c j (c j + 1)) := by
      intro j2 hj20 hj2n
      by_cases hjeq : j2 = j
      · subst hjeq
        rw [Function.update_same, Function.update_same]
        refine ⟨hrow1, ?_, ?_⟩
        · rw [hnzloc1]
          by_cases hmem : jcolf t ∈ L j2
          · rw [if_pos hmem, Function.update_same,
              sortedInsert_length _ _ hrowj.1, if_pos hmem]
            push_cast
            omega
          · rw [if_neg hmem, sortedInsert_length _ _ hrowj.1, if_neg hmem]
            push_cast
            omega
        · rw [hnzloc1]
          by_cases hmem : jcolf t ∈ L j2
          · rw [if_pos hmem, Function.update_same]
            omega
          · rw [if_neg hmem]
            exact hnz
      · obtain ⟨hrowj2, hcount2, hnz2⟩ := hinv j2 hj20 hj2n
        rw [Function.update_noteq hjeq, Function.update_noteq hjeq]
        have hnzeq : st1.nzloc j2 = st.nzloc j2 := by
          rw [hnzloc1]
          by_cases hmem : jcolf t ∈ L j
          · rw [if_pos hmem, Function.update_noteq hjeq]
          · rw [if_neg hmem]
        refine ⟨?_, by rw [hnzeq]; exact hcount2, by rw [hnzeq]; exact hnz2⟩
        apply RowOk_congr st.colidx st1.colidx _ _ _ hrowj2
        intro q hq1 hq2
        apply hframe1
        rcases lt_or_gt_of_ne hjeq with hlt | hgt
        · left
          have : R (j2 + 1) ≤ R j := Rmono (j2 + 1) j (by omega) (by omega) (by omega)
          omega
        · right
          have : R (j + 1) ≤ R j2 := Rmono (j + 1) j2 (by omega) (by omega) (by omega)
          omega
    have hcap1 : (Function.update c j (c j + 1)) j + (ts2.length : ℤ)
        ≤ R (j + 1) - R j := by
      rw [Function.update_same]
      simp at hcap
      omega
    obtain ⟨st2, lj2, hrun2, hinv2⟩ := ih st1 _ _ hinv1
      (fun t2 ht2 => hcols t2 (by simp [ht2])) hcap1
    refine ⟨st2, lj2, ?_, ?_⟩
    · rw [List.foldlM_cons, hrun1]
      exact hrun2
    · rw [Function.update_idem, Function.update_idem, Function.update_same] at hinv2
      have : c j + 1 + (ts2.length : ℤ) = c j + ((t :: ts2).length : ℤ) := by
        rw [List.length_cons]
        push_cast
        ring
      rw [this] at hinv2
      exact hinv2

lemma AsmInv_congr {V : Type} (R : ℤ → ℤ) (n : ℕ) (st : AsmState V)
    (L L2 : ℤ → List ℤ) (c c2 : ℤ → ℤ) (h : AsmInv R n st L c)
    (hL : ∀ j : ℤ, 0 ≤ j → j < n → L2 j = L j)
    (hc : ∀ j : ℤ, 0 ≤ j → j < n → c2 j = c j) :
    AsmInv R n st L2 c2 := by
  intro j h0 hn
  rw [hL j h0 hn, hc j h0 hn]
  exact h j h0 hn

/-- The columns of pattern `i`, in order. -/
def colsOf (arow : ℤ → ℤ) (acol : ℤ → ℤ → ℤ) (i : ℤ) : List ℤ :=
  (List.range (arow i).toNat).map (fun t : ℕ => acol i (t : ℤ))

/-- Processing one pattern's middle loop (`sparseMid` without the `i`
iteration): each `nza` position inserts the whole pattern into its own
target row; distinct targets keep the per-row insertion counts
independent. -/
lemma insTargets_spec {V : Type} [Ring V] (R : ℤ → ℤ) (n : ℕ)
    (Rmono : ∀ u v : ℤ, 0 ≤ u → u ≤ v → v ≤ n → R u ≤ R v)
    (arow : ℤ → ℤ) (acol : ℤ → ℤ → ℤ) (aelt : ℤ → ℤ → V) (rcond shift : V)
    (i : ℤ) (size : V)
    (hcols0 : ∀ u : ℕ, u < (arow i).toNat → 0 ≤ acol i (u : ℤ))
    (harow : 0 ≤ arow i) :
    ∀ (ts : List ℕ) (st : AsmState V) (L : ℤ → List ℤ) (c : ℤ → ℤ),
      AsmInv R n st L c →
      (∀ t ∈ ts, 0 ≤ acol i (t : ℤ) ∧ acol i (t : ℤ) < n) →
      (ts.map (fun t : ℕ => acol i (t : ℤ))).Nodup →
      (∀ t ∈ ts, c (acol i (t : ℤ)) + arow i
        ≤ R (acol i (t : ℤ) + 1) - R (acol i (t : ℤ))) →
      ∃ st2 L2,
        ts.foldlM (fun (st : AsmState V) (nza : ℕ) =>
            sparseInner R arow acol aelt rcond shift i (acol i (nza : ℤ))
              (size * aelt i (nza : ℤ)) st) st = .ok st2
          ∧ (∀ j : ℤ, j ∉ ts.map (fun t : ℕ => acol i (t : ℤ)) → L2 j = L j)
          ∧ AsmInv R n st2 L2
              (fun j => if j ∈ ts.map (fun t : ℕ => acol i (t : ℤ)) then c j + arow i
                else c j) := by
  intro ts
  induction ts with
  | nil =>
    intro st L c hinv htargets hnd hrooms
    refine ⟨st, L, rfl, fun j _ => rfl, ?_⟩
    apply AsmInv_congr R n st L L c _ hinv (fun j _ _ => rfl)
    intro j _ _
    simp
  | cons t0 ts2 ih =>
    intro st L c hinv htargets hnd hrooms
    obtain ⟨ht00, ht0n⟩ := htargets t0 (by simp)
    have hroom0 : c (acol i (t0 : ℤ)) + ((List.range (arow i).toNat).length : ℤ)
        ≤ R (acol i (t0 : ℤ) + 1) - R (acol i (t0 : ℤ)) := by
      rw [List.length_range]
      rw [Int.toNat_of_nonneg harow]
      exact hrooms t0 (by simp)
    obtain ⟨st1, lj1, hrun1, hinv1⟩ := insList_spec R n Rmono (acol i (t0 : ℤ))
      ht00 ht0n (fun u => acol i (u : ℤ))
      (fun u => aelt i (u : ℤ) * (size * aelt i (t0 : ℤ))
        + (if acol i (u : ℤ) = acol i (t0 : ℤ) ∧ acol i (t0 : ℤ) = i
           then rcond - shift else 0))
      (List.range (arow i).toNat) st L c hinv
      (fun u hu => hcols0 u (List.mem_range.mp hu)) hroom0
    rw [List.length_range, Int.toNat_of_nonneg harow] at hinv1
    have hnd2 : (ts2.map (fun t : ℕ => acol i (t : ℤ))).Nodup := by
      rw [List.map_cons, List.nodup_cons] at hnd
      exact hnd.2
    have ht0notin : acol i (t0 : ℤ) ∉ ts2.map (fun t : ℕ => acol i (t : ℤ)) := by
      rw [List.map_cons, List.nodup_cons] at hnd
      exact hnd.1
    have hrooms2 : ∀ t ∈ ts2,
        (Function.update c (acol i (t0 : ℤ)) (c (acol i (t0 : ℤ)) + arow i))
            (acol i (t : ℤ)) + arow i
          ≤ R (acol i (t : ℤ) + 1) - R (acol i (t : ℤ)) := by
      intro t ht
      have hne : acol i (t : ℤ) ≠ acol i (t0 : ℤ) := by
        intro hcon
        exact ht0notin (by rw [← hcon]; exact List.mem_map_of_mem _ ht)
      rw [Function.update_noteq hne]
      exact hrooms t (by simp [ht])
    obtain ⟨st2, L2, hrun2, hL2, hinv2⟩ := ih st1 _ _ hinv1
      (fun t ht => htargets t (by simp [ht])) hnd2 hrooms2
    refine ⟨st2, L2, ?_, ?_, ?_⟩
    · rw [List.foldlM_cons, sparseInner, hrun1]
      exact hrun2
    · intro j hj
      rw [List.map_cons, List.mem_cons] at hj
      push_neg at hj
      rw [hL2 j hj.2, Function.update_noteq hj.1]
    · apply AsmInv_congr R n st2 L2 L2 _ _ hinv2 (fun j _ _ => rfl)
      intro j _ _
      simp only [List.map_cons, List.mem_cons]
      by_cases hj0 : j = acol i (t0 : ℤ)
      · rw [if_pos (Or.inl hj0), if_neg (by rw [hj0]; exact ht0notin), hj0,
          Function.update_same]
      · by_cases hj2 : j ∈ ts2.map (fun t : ℕ => acol i (t : ℤ))
        · rw [if_pos (Or.inr hj2), if_pos hj2, Function.update_noteq hj0]
        · rw [if_neg (by push_neg; exact ⟨hj0, hj2⟩), if_neg hj2,
            Function.update_noteq hj0]

/-- Well-formed patterns: nonnegative sizes and, for each row in range,
duplicate-free column lists over `[0, n)` — exactly what `make_matrix`
produces (`acol[iouter][..] = ivc[..] - 1` with `ivc` distinct in
`[1, na]`). -/
def PatWF (n : ℕ) (arow : ℤ → ℤ) (acol : ℤ → ℤ → ℤ) : Prop :=
  (∀ i2 : ℤ, 0 ≤ arow i2)
    ∧ ∀ i2 : ℤ, 0 ≤ i2 → i2 < (n : ℤ) →
        (colsOf arow acol i2).Nodup
          ∧ ∀ cc ∈ colsOf arow acol i2, 0 ≤ cc ∧ cc < (n : ℤ)

/-- The insertion count into row `j` contributed by the first `m`
patterns: pattern `i` inserts `arow i` entries into each of its rows. -/
def cUpTo (arow : ℤ → ℤ) (acol : ℤ → ℤ → ℤ) (m : ℕ) (j : ℤ) : ℤ :=
  ∑ i2 in Finset.range m,
    if j ∈ colsOf arow acol (i2 : ℤ) then arow (i2 : ℤ) else 0

lemma sum_ite_mem_range (f : ℕ → ℤ) (A j : ℤ) : ∀ (len : ℕ),
    ((List.range len).map (fun t : ℕ => f t)).Nodup →
    ∑ t in Finset.range len, (if f t = j then A else 0)
      = if j ∈ (List.range len).map (fun t : ℕ => f t) then A else 0 := by
  intro len
  induction len with
  | zero => intro _; simp
  | succ len ih =>
    intro hnd
    have hsplit := hnd
    rw [List.range_succ, List.map_append, List.nodup_append] at hsplit
    obtain ⟨hnd1, -, hdisj⟩ := hsplit
    have hlast : f len ∉ (List.range len).map (fun t : ℕ => f t) := by
      intro hcon
      exact hdisj hcon (by simp)
    have hmemiff : (j ∈ (List.range (len + 1)).map (fun t : ℕ => f t))
        ↔ (j ∈ (List.range len).map (fun t : ℕ => f t) ∨ j = f len) := by
      rw [List.range_succ, List.map_append, List.mem_append]
      simp [eq_comm]
    rw [Finset.sum_range_succ, ih hnd1]
    by_cases hj : f len = j
    · rw [if_pos hj, if_neg (by rw [← hj]; exact hlast),
        if_pos (hmemiff.mpr (Or.inr hj.symm)), zero_add]
    · rw [if_neg hj, add_zero]
      by_cases hj2 : j ∈ (List.range len).map (fun t : ℕ => f t)
      · rw [if_pos hj2, if_pos (hmemiff.mpr (Or.inl hj2))]
      · rw [if_neg hj2, if_neg (by
          intro hcon
          rcases hmemiff.mp hcon with h | h
          · exact hj2 h
          · exact hj h.symm)]

lemma rowCount_nonneg (n : ℕ) (arow : ℤ → ℤ) (acol : ℤ → ℤ → ℤ)
    (harow : ∀ i2 : ℤ, 0 ≤ arow i2) (j : ℤ) :
    0 ≤ rowCount n arow acol j := by
  apply Finset.sum_nonneg
  intro i _
  apply Finset.sum_nonneg
  intro t _
  by_cases h : acol (i : ℤ) (t : ℤ) + 1 = j
  · rw [if_pos h]
    exact harow _
  · rw [if_neg h]

lemma rowstrF_mono (n : ℕ) (arow : ℤ → ℤ) (acol : ℤ → ℤ → ℤ)
    (harow : ∀ i2 : ℤ, 0 ≤ arow i2) :
    ∀ u v : ℤ, u ≤ v → rowstrF n arow acol u ≤ rowstrF n arow acol v := by
  intro u v huv
  apply Finset.sum_le_sum_of_subset_of_nonneg
  · intro t ht
    rw [Finset.mem_range] at ht ⊢
    omega
  · intro t _ _
    exact rowCount_nonneg n arow acol harow _

lemma rowstrF_zero (n : ℕ) (arow : ℤ → ℤ) (acol : ℤ → ℤ → ℤ) :
    rowstrF n arow acol 0 = 0 := by
  rw [rowstrF]
  simp

/-- The slice capacity of row `j` provided by pass 1. -/
lemma rowstrF_cap (n : ℕ) (arow : ℤ → ℤ) (acol : ℤ → ℤ → ℤ) (j : ℤ)
    (hj : 0 ≤ j) :
    rowstrF n arow acol (j + 1) - rowstrF n arow acol j
      = rowCount n arow acol (j + 1) := by
  rw [rowstrF, rowstrF, show (j + 1).toNat = j.toNat + 1 by omega,
    Finset.sum_range_succ, show ((j.toNat : ℕ) : ℤ) + 1 = j + 1 by
      rw [Int.toNat_of_nonneg hj]]
  ring

/-- Under duplicate-free patterns, the pass-1 capacity of row `j` is
exactly the total number of insertions pass 2 performs into row `j`. -/
lemma rowCount_eq_cUpTo (n : ℕ) (arow : ℤ → ℤ) (acol : ℤ → ℤ → ℤ)
    (hwf : PatWF n arow acol) (j : ℤ) :
    rowCount n arow acol (j + 1) = cUpTo arow acol n j := by
  rw [rowCount, cUpTo]
  apply Finset.sum_congr rfl
  intro i2 hi2
  rw [Finset.mem_range] at hi2
  have heq : ∀ t : ℕ, (if acol (i2 : ℤ) (t : ℤ) + 1 = j + 1 then arow (i2 : ℤ) else 0)
      = (if acol (i2 : ℤ) (t : ℤ) = j then arow (i2 : ℤ) else 0) := by
    intro t
    by_cases h : acol (i2 : ℤ) (t : ℤ) = j
    · rw [if_pos h, if_pos (by omega)]
    · rw [if_neg h, if_neg (by omega)]
  rw [Finset.sum_congr rfl (fun t _ => heq t)]
  exact sum_ite_mem_range (fun t : ℕ => acol (i2 : ℤ) (t : ℤ)) (arow (i2 : ℤ)) j
    (arow (i2 : ℤ)).toNat (hwf.2 (i2 : ℤ) (by omega) (by exact_mod_cast hi2)).1

lemma cUpTo_succ (arow : ℤ → ℤ) (acol : ℤ → ℤ → ℤ) (m : ℕ) (j : ℤ) :
    cUpTo arow acol (m + 1) j
      = cUpTo arow acol m j
        + (if j ∈ colsOf arow acol (m : ℤ) then arow (m : ℤ) else 0) :=
  Finset.sum_range_succ _ m

lemma cUpTo_le (arow : ℤ → ℤ) (acol : ℤ → ℤ → ℤ)
    (harow : ∀ i2 : ℤ, 0 ≤ arow i2) (m n2 : ℕ) (hmn : m ≤ n2) (j : ℤ) :
    cUpTo arow acol m j ≤ cUpTo arow acol n2 j := by
  apply Finset.sum_le_sum_of_subset_of_nonneg
  · intro t ht
    rw [Finset.mem_range] at ht ⊢
    omega
  · intro i _ _
    by_cases h : j ∈ colsOf arow acol (i : ℤ)
    · rw [if_pos h]
      exact harow _
    · rw [if_neg h]

/-- Pass 2 over the pattern suffix `[m, m+k)`: the invariant advances
from insertion counts `cUpTo m` to `cUpTo (m+k)`, every insertion
succeeding. -/
lemma pass2_aux {V : Type} [Ring V] (n : ℕ) (arow : ℤ → ℤ) (acol : ℤ → ℤ → ℤ)
    (aelt : ℤ → ℤ → V) (rcond shift ratio : V) (hwf : PatWF n arow acol) :
    ∀ (k m : ℕ), m + k ≤ n →
      ∀ (st : AsmState V) (size : V) (L : ℤ → List ℤ),
        AsmInv (rowstrF n arow acol) n st L (cUpTo arow acol m) →
        ∃ st2 size2 L2,
          (List.range' m k).foldlM (fun (pr : AsmState V × V) (i : ℕ) => do
              let stb ← sparseMid (rowstrF n arow acol) arow acol aelt rcond shift
                (i : ℤ) pr.2 pr.1
              pure (stb, pr.2 * ratio)) (st, size) = .ok (st2, size2)
            ∧ AsmInv (rowstrF n arow acol) n st2 L2 (cUpTo arow acol (m + k)) := by
  intro k
  induction k with
  | zero =>
    intro m hmk st size L hinv
    exact ⟨st, size, L, rfl, by rw [Nat.add_zero]; exact hinv⟩
  | succ k ih =>
    intro m hmk st size L hinv
    have Rmono : ∀ u v : ℤ, 0 ≤ u → u ≤ v → v ≤ (n : ℤ) →
        rowstrF n arow acol u ≤ rowstrF n arow acol v :=
      fun u v _ huv _ => rowstrF_mono n arow acol hwf.1 u v huv
    obtain ⟨hndm, hcolsm⟩ := hwf.2 (m : ℤ) (by positivity)
      (by exact_mod_cast (by omega : m < n))
    have hcols0 : ∀ u : ℕ, u < (arow (m : ℤ)).toNat → 0 ≤ acol (m : ℤ) (u : ℤ) := by
      intro u hu
      exact (hcolsm _ (List.mem_map_of_mem _ (List.mem_range.mpr hu))).1
    have hrooms : ∀ t ∈ List.range (arow (m : ℤ)).toNat,
        cUpTo arow acol m (acol (m : ℤ) (t : ℤ)) + arow (m : ℤ)
          ≤ rowstrF n arow acol (acol (m : ℤ) (t : ℤ) + 1)
            - rowstrF n arow acol (acol (m : ℤ) (t : ℤ)) := by
      intro t ht
      have hmem : acol (m : ℤ) (t : ℤ) ∈ colsOf arow acol (m : ℤ) :=
        List.mem_map_of_mem _ ht
      have h0 : 0 ≤ acol (m : ℤ) (t : ℤ) := (hcolsm _ hmem).1
      rw [rowstrF_cap n arow acol _ h0, rowCount_eq_cUpTo n arow acol hwf]
      calc cUpTo arow acol m (acol (m : ℤ) (t : ℤ)) + arow (m : ℤ)
          = cUpTo arow acol (m + 1) (acol (m : ℤ) (t : ℤ)) := by
            rw [cUpTo_succ, if_pos hmem]
        _ ≤ cUpTo arow acol n (acol (m : ℤ) (t : ℤ)) :=
            cUpTo_le arow acol hwf.1 (m + 1) n (by omega) _
    obtain ⟨st1, L1, hrun1, hL1, hinv1⟩ := insTargets_spec (rowstrF n arow acol) n
      Rmono arow acol aelt rcond shift (m : ℤ) size hcols0 (hwf.1 _)
      (List.range (arow (m : ℤ)).toNat) st L (cUpTo arow acol m) hinv
      (fun t ht => hcolsm _ (List.mem_map_of_mem _ ht)) hndm hrooms
    have hinv1b : AsmInv (rowstrF n arow acol) n st1 L1 (cUpTo arow acol (m + 1)) := by
      apply AsmInv_congr _ n st1 L1 L1 _ _ hinv1 (fun j _ _ => rfl)
      intro j _ _
      rw [cUpTo_succ]
      simp only [colsOf]
      by_cases hmem : j ∈ (List.range (arow (m : ℤ)).toNat).map
          (fun t : ℕ => acol (m : ℤ) (t : ℤ))
      · rw [if_pos hmem, if_pos hmem]
      · rw [if_neg hmem, if_neg hmem, add_zero]
    obtain ⟨st2, size2, L2, hrun2, hinv2⟩ := ih (m + 1) (by omega) st1 (size * ratio)
      L1 hinv1b
    refine ⟨st2, size2, L2, ?_, ?_⟩
    · rw [List.range'_succ, List.foldlM_cons, sparseMid, hrun1]
      exact hrun2
    · rw [show m + (k + 1) = m + 1 + k by omega]
      exact hinv2

/-- Pass 2 of the assembly always succeeds on well-formed patterns, and
ends with every row's slice well formed, the per-row distinct counts and
`nzloc` summing to the slice capacity. -/
lemma sparsePass2_spec {V : Type} [Ring V] (n : ℕ) (arow : ℤ → ℤ)
    (acol : ℤ → ℤ → ℤ) (aelt : ℤ → ℤ → V) (rcond shift ratio : V)
    (hwf : PatWF n arow acol) :
    ∃ st2 L2,
      sparsePass2 n (rowstrF n arow acol) arow acol aelt rcond shift ratio
          { a := fun _ => 0,
            colidx := fun k =>
              if 0 ≤ k ∧ k < rowstrF n arow acol n then -1 else 0,
            nzloc := fun _ => 0 } = .ok st2
        ∧ AsmInv (rowstrF n arow acol) n st2 L2 (cUpTo arow acol n) := by
  have Rmono : ∀ u v : ℤ, u ≤ v →
      rowstrF n arow acol u ≤ rowstrF n arow acol v :=
    rowstrF_mono n arow acol hwf.1
  have hinv0 : AsmInv (rowstrF n arow acol) n
      { a := fun _ => (0 : V),
        colidx := fun k => if 0 ≤ k ∧ k < rowstrF n arow acol n then -1 else 0,
        nzloc := fun _ => 0 }
      (fun _ => []) (cUpTo arow acol 0) := by
    intro j hj0 hjn
    refine ⟨⟨List.sorted_nil, by simp, ?_, ?_, ?_⟩, ?_, le_refl 0⟩
    · simp only [List.length_nil, Nat.cast_zero, add_zero]
      exact Rmono j (j + 1) (by omega)
    · intro t ht
      simp at ht
    · intro k hk1 hk2
      simp only [List.length_nil, Nat.cast_zero, add_zero] at hk1
      have h0k : 0 ≤ k := by
        have : rowstrF n arow acol 0 ≤ rowstrF n arow acol j := Rmono 0 j hj0
        rw [rowstrF_zero] at this
        omega
      have hkn : k < rowstrF n arow acol n := by
        have : rowstrF n arow acol (j + 1) ≤ rowstrF n arow acol n :=
          Rmono (j + 1) n (by omega)
        omega
      simp only []
      rw [if_pos ⟨h0k, hkn⟩]
    · simp [cUpTo]
  obtain ⟨st2, size2, L2, hrun, hinv⟩ := pass2_aux n arow acol aelt rcond shift ratio
    hwf n 0 (by omega) _ 1 (fun _ => []) hinv0
  refine ⟨st2, L2, ?_, by simpa using hinv⟩
  rw [sparsePass2, List.range_eq_range', hrun]
  rfl

/-- Closed form of the compaction copy loop on the column component:
with a source at or past the destination, each copied slot reads the
original buffer (the loop never reads a slot it has already written). -/
lemma compactMove_closed {V : Type} : ∀ (m : ℕ) (p : (ℤ → V) × (ℤ → ℤ)) (j1 src : ℤ),
    j1 ≤ src →
    ∀ q : ℤ, (compactMove j1 (j1 + m) src p).2 q
      = if j1 ≤ q ∧ q < j1 + m then p.2 (src + (q - j1)) else p.2 q := by
  intro m
  induction m with
  | zero =>
    intro p j1 src hle q
    rw [compactMove]
    rw [show ((j1 + (0 : ℕ) - j1).toNat) = 0 by omega]
    rw [if_neg (by push_cast; omega)]
    rfl
  | succ m ih =>
    intro p j1 src hle q
    rw [compactMove, show ((j1 + ((m : ℕ) + 1 : ℕ) - j1).toNat) = m + 1 by push_cast; omega,
      List.range_succ, List.foldl_append, List.foldl_cons, List.foldl_nil]
    have hprev : ∀ q2 : ℤ,
        ((List.range m).foldl (fun (p : (ℤ → V) × (ℤ → ℤ)) (t : ℕ) =>
          (Function.update p.1 (j1 + (t : ℤ)) (p.1 (src + (t : ℤ))),
           Function.update p.2 (j1 + (t : ℤ)) (p.2 (src + (t : ℤ))))) p).2 q2
          = if j1 ≤ q2 ∧ q2 < j1 + m then p.2 (src + (q2 - j1)) else p.2 q2 := by
      intro q2
      have := ih p j1 src hle q2
      rw [compactMove, show ((j1 + (m : ℕ) - j1).toNat) = m by omega] at this
      exact this
    simp only []
    rw [Function.update_apply, hprev]
    by_cases hq : q = j1 + m
    · rw [if_pos hq]
      rw [if_neg (by omega)]
      rw [if_pos (by push_cast; omega)]
      rw [show src + (q - j1) = src + (m : ℤ) by omega]
    · rw [if_neg hq, hprev]
      by_cases hin : j1 ≤ q ∧ q < j1 + m
      · rw [if_pos hin, if_pos (by push_cast; omega)]
      · rw [if_neg hin, if_neg (by push_cast; omega)]

/-- A step-monotone function on `[0, n]` is monotone there. -/
lemma monoStep (f : ℤ → ℤ) (n : ℕ)
    (hstep : ∀ j : ℤ, 0 ≤ j → j < n → f j ≤ f (j + 1)) :
    ∀ u v : ℤ, 0 ≤ u → u ≤ v → v ≤ (n : ℤ) → f u ≤ f v := by
  have key : ∀ (d : ℕ) (u : ℤ), 0 ≤ u → u + d ≤ (n : ℤ) → f u ≤ f (u + d) := by
    intro d
    induction d with
    | zero => intro u _ _; simp
    | succ d ih =>
      intro u hu hun
      have h1 : f u ≤ f (u + d) := ih u hu (by push_cast at hun ⊢; omega)
      have h2 : f (u + d) ≤ f (u + d + 1) :=
        hstep (u + d) (by positivity) (by push_cast at hun; omega)
      calc f u ≤ f (u + d) := h1
        _ ≤ f (u + d + 1) := h2
        _ = f (u + ((d : ℕ) + 1 : ℕ)) := by
            congr 1
            push_cast
            ring
  intro u v hu huv hvn
  have := key (v - u).toNat u hu (by omega)
  rw [show u + ((v - u).toNat : ℤ) = v by omega] at this
  exact this

/-- Any value below `f n₂` (with `f 0 = 0`) lies in some step interval. -/
lemma interval_partition (f : ℤ → ℤ) : ∀ (n2 : ℕ) (k : ℤ),
    f 0 ≤ k → k < f (n2 : ℤ) →
    ∃ j : ℤ, 0 ≤ j ∧ j < (n2 : ℤ) ∧ f j ≤ k ∧ k < f (j + 1) := by
  intro n2
  induction n2 with
  | zero => intro k h1 h2; rw [Nat.cast_zero] at h2; omega
  | succ n2 ih =>
    intro k h1 h2
    by_cases hk : k < f (n2 : ℤ)
    · obtain ⟨j, hj⟩ := ih k h1 hk
      exact ⟨j, hj.1, by push_cast; omega, hj.2.2⟩
    · refine ⟨(n2 : ℤ), by positivity, by push_cast; omega, by omega, ?_⟩
      rw [show ((n2 : ℤ) + 1) = (((n2 + 1 : ℕ) : ℤ)) by push_cast; ring]
      exact h2

lemma getD_pair_mem (pats : List (List ℤ × List ℚ)) (d : List ℤ × List ℚ)
    (t : ℕ) (h : t < pats.length) : pats.getD t d ∈ pats := by
  rw [List.getD_eq_getElem pats d h]
  exact pats.getElem_mem h

lemma sorted_getD_lt (l : List ℤ) (hs : List.Sorted (· < ·) l) (t1 t2 : ℕ)
    (h12 : t1 < t2) (h2 : t2 < l.length) :
    l.getD t1 0 < l.getD t2 0 := by
  have h1 : t1 < l.length := lt_trans h12 h2
  rw [List.getD_eq_getElem l 0 h1, List.getD_eq_getElem l 0 h2]
  exact List.pairwise_iff_getElem.mp hs t1 t2 h1 h2 h12

lemma getD_map_range (N : ℕ) (f : ℕ → ℤ) (k : ℕ) (h : k < N) :
    ((List.range N).map f).getD k 0 = f k := by
  have hlen : k < ((List.range N).map f).length := by
    rw [List.length_map, List.length_range]
    exact h
  rw [List.getD_eq_getElem _ 0 hlen]
  simp

/-- The compaction fold after processing rows `0..m-1`: rows below `m`
have been copied to their final offsets and every slot at or past `rs m`
still holds its pass-2 value (the copy loops only read ahead of every
slot already written). -/
lemma compact_aux {V : Type} (n : ℕ) (R cum rs : ℤ → ℤ)
    (L2 : ℤ → List ℤ) (p : (ℤ → V) × (ℤ → ℤ))
    (hj1 : ∀ j : ℤ, 0 ≤ j → j < n →
      (if j > 0 then R j - cum (j - 1) else 0) = rs j)
    (hj2 : ∀ j : ℤ, 0 ≤ j → j < n → R (j + 1) - cum j = rs (j + 1))
    (hstep : ∀ j : ℤ, 0 ≤ j → j < n →
      rs (j + 1) = rs j + ((L2 j).length : ℤ))
    (hle : ∀ j : ℤ, 0 ≤ j → j < n → rs j ≤ R j)
    (hseg : ∀ j : ℤ, 0 ≤ j → j < n → ∀ t : ℕ, t < (L2 j).length →
      p.2 (R j + (t : ℤ)) = (L2 j).getD t 0) :
    ∀ m : ℕ, m ≤ n →
      (∀ q : ℤ, rs (m : ℤ) ≤ q →
        ((List.range m).foldl (fun (p2 : (ℤ → V) × (ℤ → ℤ)) (j : ℕ) =>
          compactMove (if (j : ℤ) > 0 then R (j : ℤ) - cum ((j : ℤ) - 1) else 0)
            (R ((j : ℤ) + 1) - cum (j : ℤ)) (R (j : ℤ)) p2) p).2 q = p.2 q)
      ∧ ∀ j : ℤ, 0 ≤ j → j < (m : ℤ) → ∀ t : ℕ, t < (L2 j).length →
          ((List.range m).foldl (fun (p2 : (ℤ → V) × (ℤ → ℤ)) (j : ℕ) =>
            compactMove (if (j : ℤ) > 0 then R (j : ℤ) - cum ((j : ℤ) - 1) else 0)
              (R ((j : ℤ) + 1) - cum (j : ℤ)) (R (j : ℤ)) p2) p).2 (rs j + (t : ℤ))
            = (L2 j).getD t 0 := by
  have hmono : ∀ u v : ℤ, 0 ≤ u → u ≤ v → v ≤ (n : ℤ) → rs u ≤ rs v := by
    apply monoStep
    intro j h0 hn2
    rw [hstep j h0 hn2]
    omega
  intro m
  induction m with
  | zero =>
    refine fun _ => ⟨fun q _ => rfl, ?_⟩
    intro j hj0 hj t ht
    exact absurd hj (by push_cast; omega)
  | succ m ih =>
    intro hmn
    obtain ⟨ihA, ihB⟩ := ih (by omega)
    have hm0 : (0 : ℤ) ≤ (m : ℤ) := by omega
    have hmln : ((m : ℕ) : ℤ) < (n : ℤ) := by exact_mod_cast hmn
    rw [List.range_succ, List.foldl_append, List.foldl_cons, List.foldl_nil]
    rw [hj1 (m : ℤ) hm0 hmln, hj2 (m : ℤ) hm0 hmln, hstep (m : ℤ) hm0 hmln]
    have hclosed := compactMove_closed ((L2 ((m : ℕ) : ℤ)).length)
      ((List.range m).foldl (fun (p2 : (ℤ → V) × (ℤ → ℤ)) (j : ℕ) =>
        compactMove (if (j : ℤ) > 0 then R (j : ℤ) - cum ((j : ℤ) - 1) else 0)
          (R ((j : ℤ) + 1) - cum (j : ℤ)) (R (j : ℤ)) p2) p)
      (rs ((m : ℕ) : ℤ)) (R ((m : ℕ) : ℤ)) (hle ((m : ℕ) : ℤ) hm0 hmln)
    have hs1 := hstep ((m : ℕ) : ℤ) hm0 hmln
    constructor
    · intro q hq
      push_cast at hq
      rw [hclosed q, if_neg (by omega)]
      exact ihA q (by omega)
    · intro j hj0 hjm1 t ht
      push_cast at hjm1
      by_cases hjm : j = ((m : ℕ) : ℤ)
      · subst hjm
        rw [hclosed (rs ((m : ℕ) : ℤ) + (t : ℤ)), if_pos (by omega)]
        rw [show rs ((m : ℕ) : ℤ) + (t : ℤ) - rs ((m : ℕ) : ℤ) = (t : ℤ) by ring]
        rw [ihA (R ((m : ℕ) : ℤ) + (t : ℤ))
          (by have := hle ((m : ℕ) : ℤ) hm0 hmln; omega)]
        exact hseg ((m : ℕ) : ℤ) hm0 hmln t ht
      · have hjm2 : j + 1 ≤ ((m : ℕ) : ℤ) := by omega
        have hsj : rs (j + 1) = rs j + ((L2 j).length : ℤ) :=
          hstep j hj0 (by omega)
        have hup : rs (j + 1) ≤ rs ((m : ℕ) : ℤ) :=
          hmono (j + 1) ((m : ℕ) : ℤ) (by omega) hjm2 (by omega)
        rw [hclosed (rs j + (t : ℤ)), if_neg (by omega)]
        exact ihB j hj0 (by omega) t ht

/-- Well-formedness of the returned CSR pair: `n+1` row pointers starting
at `0`, monotone; within each row's slice the stored column indices are
strictly increasing; and the total number of stored column entries equals
the last row pointer. -/
def CSRWellFormed (n : ℕ) (lci lrs : List ℤ) : Prop :=
  lrs.length = n + 1
    ∧ lrs.getD 0 0 = 0
    ∧ (∀ j : ℕ, j < n → lrs.getD j 0 ≤ lrs.getD (j + 1) 0)
    ∧ (∀ j : ℕ, j < n → ∀ k1 k2 : ℤ,
        lrs.getD j 0 ≤ k1 → k1 < k2 → k2 < lrs.getD (j + 1) 0 →
        lci.getD k1.toNat 0 < lci.getD k2.toNat 0)
    ∧ (lci.length : ℤ) = lrs.getD n 0

/-- On the success path (capacity guard false, pass 2 succeeded with
`st2`) the assembly returns the compacted buffers read back at the
adjusted row pointers. -/
lemma sparse_ok_eq {V : Type} [Ring V] (n : ℕ) (nz : ℤ) (arow : ℤ → ℤ)
    (acol : ℤ → ℤ → ℤ) (aelt : ℤ → ℤ → V) (rcond shift ratio : V)
    (st2 : AsmState V)
    (hpass : sparsePass2 n (rowstrF n arow acol) arow acol aelt rcond shift ratio
        { a := fun _ => 0,
          colidx := fun k =>
            if 0 ≤ k ∧ k < rowstrF n arow acol n then -1 else 0,
          nzloc := fun _ => 0 } = .ok st2)
    (hcap : ¬ rowstrF n arow acol (n : ℤ) - 1 > nz) :
    sparse V n nz arow acol aelt rcond shift ratio
      = .ok ((sparseCompact n (rowstrF n arow acol) (nzlocCum st2.nzloc)
            (st2.a, st2.colidx)).1,
          (List.range ((rowstrFinal n (rowstrF n arow acol)
              (nzlocCum st2.nzloc) (n : ℤ)).toNat)).map
            (fun k : ℕ =>
              (sparseCompact n (rowstrF n arow acol) (nzlocCum st2.nzloc)
                (st2.a, st2.colidx)).2 (k : ℤ)),
          (List.range (n + 1)).map
            (fun j : ℕ =>
              rowstrFinal n (rowstrF n arow acol) (nzlocCum st2.nzloc) (j : ℤ))) := by
  rw [sparse]
  rw [if_neg hcap, hpass]

/-- The compacted column buffer together with the adjusted row pointers
forms a well-formed CSR structure. -/
lemma compacted_csr_wellformed {V : Type} [Ring V] (n : ℕ)
    (arow : ℤ → ℤ) (acol : ℤ → ℤ → ℤ) (hwf : PatWF n arow acol)
    (st2 : AsmState V) (L2 : ℤ → List ℤ)
    (hinv : AsmInv (rowstrF n arow acol) n st2 L2 (cUpTo arow acol n)) :
    CSRWellFormed n
      ((List.range ((rowstrFinal n (rowstrF n arow acol)
          (nzlocCum st2.nzloc) (n : ℤ)).toNat)).map
        (fun k : ℕ =>
          (sparseCompact n (rowstrF n arow acol) (nzlocCum st2.nzloc)
            (st2.a, st2.colidx)).2 (k : ℤ)))
      ((List.range (n + 1)).map
        (fun j : ℕ =>
          rowstrFinal n (rowstrF n arow acol) (nzlocCum st2.nzloc) (j : ℤ))) := by
  set R := rowstrF n arow acol with hR
  set cum := nzlocCum st2.nzloc with hcum
  set rs := rowstrFinal n R cum with hrs
  have hR0 : R 0 = 0 := by rw [hR]; exact rowstrF_zero n arow acol
  have hcapj : ∀ j : ℤ, 0 ≤ j → j < (n : ℤ) →
      R (j + 1) - R j = cUpTo arow acol n j := by
    intro j h0 hn2
    rw [hR, rowstrF_cap n arow acol j h0, rowCount_eq_cUpTo n arow acol hwf j]
  have hcnt : ∀ j : ℤ, 0 ≤ j → j < (n : ℤ) →
      ((L2 j).length : ℤ) + st2.nzloc j = cUpTo arow acol n j :=
    fun j h0 hn2 => (hinv j h0 hn2).2.1
  have hnz : ∀ j : ℤ, 0 ≤ j → j < (n : ℤ) → 0 ≤ st2.nzloc j :=
    fun j h0 hn2 => (hinv j h0 hn2).2.2
  have hcum_m1 : cum (-1 : ℤ) = 0 := by
    rw [hcum, nzlocCum]
    simp
  have hcum_step : ∀ j : ℤ, 0 ≤ j → cum j = cum (j - 1) + st2.nzloc j := by
    intro j h0
    rw [hcum, nzlocCum, nzlocCum, show (j + 1).toNat = (j - 1 + 1).toNat + 1 by omega,
      Finset.sum_range_succ, show (((j - 1 + 1).toNat : ℕ) : ℤ) = j by omega]
  have hcum_nonneg : ∀ j : ℤ, j < (n : ℤ) → 0 ≤ cum j := by
    intro j hj
    rw [hcum, nzlocCum]
    apply Finset.sum_nonneg
    intro t ht
    rw [Finset.mem_range] at ht
    exact hnz (t : ℤ) (by omega) (by omega)
  have hj1 : ∀ j : ℤ, 0 ≤ j → j < (n : ℤ) →
      (if j > 0 then R j - cum (j - 1) else 0) = rs j := by
    intro j h0 hn2
    by_cases hj : j > 0
    · rw [if_pos hj, hrs, rowstrFinal, if_pos (by omega)]
    · have hj0 : j = 0 := by omega
      subst hj0
      rw [if_neg hj, hrs, rowstrFinal, if_neg (by omega), hR, rowstrF_zero]
  have hj2 : ∀ j : ℤ, 0 ≤ j → j < (n : ℤ) → R (j + 1) - cum j = rs (j + 1) := by
    intro j h0 hn2
    rw [hrs, rowstrFinal, if_pos (by omega), show j + 1 - 1 = j by ring]
  have hstep : ∀ j : ℤ, 0 ≤ j → j < (n : ℤ) →
      rs (j + 1) = rs j + ((L2 j).length : ℤ) := by
    intro j h0 hn2
    have e1 := hj1 j h0 hn2
    have e2 := hj2 j h0 hn2
    have ec := hcapj j h0 hn2
    have en := hcnt j h0 hn2
    have es := hcum_step j h0
    by_cases hj : j > 0
    · rw [if_pos hj] at e1
      omega
    · have hj0 : j = 0 := by omega
      subst hj0
      rw [if_neg hj] at e1
      rw [show (0 : ℤ) - 1 = -1 by norm_num] at es
      omega
  have hle : ∀ j : ℤ, 0 ≤ j → j < (n : ℤ) → rs j ≤ R j := by
    intro j h0 hn2
    have e1 := hj1 j h0 hn2
    by_cases hj : j > 0
    · rw [if_pos hj] at e1
      have := hcum_nonneg (j - 1) (by omega)
      omega
    · have hj0 : j = 0 := by omega
      subst hj0
      rw [if_neg hj] at e1
      omega
  have hrsmono : ∀ u v : ℤ, 0 ≤ u → u ≤ v → v ≤ (n : ℤ) → rs u ≤ rs v := by
    apply monoStep
    intro j h0 hn2
    rw [hstep j h0 hn2]
    omega
  have hseg : ∀ j : ℤ, 0 ≤ j → j < (n : ℤ) → ∀ t : ℕ, t < (L2 j).length →
      (st2.a, st2.colidx).2 (R j + (t : ℤ)) = (L2 j).getD t 0 :=
    fun j h0 hn2 t ht => (hinv j h0 hn2).1.2.2.2.1 t ht
  obtain ⟨hA0, hB0⟩ := compact_aux n R cum rs L2 (st2.a, st2.colidx)
    hj1 hj2 hstep hle hseg n (le_refl n)
  have hA : ∀ q : ℤ, rs (n : ℤ) ≤ q →
      (sparseCompact n R cum (st2.a, st2.colidx)).2 q = st2.colidx q :=
    fun q hq => hA0 q hq
  have hB : ∀ j : ℤ, 0 ≤ j → j < (n : ℤ) → ∀ t : ℕ, t < (L2 j).length →
      (sparseCompact n R cum (st2.a, st2.colidx)).2 (rs j + (t : ℤ))
        = (L2 j).getD t 0 :=
    fun j h0 hn2 t ht => hB0 j h0 hn2 t ht
  have hrs0 : rs (0 : ℤ) = 0 := by
    rw [hrs, rowstrFinal, if_neg (by omega)]
    exact hR0
  have hrsnn : ∀ j : ℤ, 0 ≤ j → j ≤ (n : ℤ) → 0 ≤ rs j := by
    intro j h0 hn2
    have := hrsmono 0 j (le_refl 0) h0 hn2
    omega
  have hlrs : ∀ j : ℕ, j ≤ n →
      ((List.range (n + 1)).map
        (fun j2 : ℕ => rs ((j2 : ℕ) : ℤ))).getD j 0 = rs ((j : ℕ) : ℤ) :=
    fun j hj => getD_map_range (n + 1) _ j (by omega)
  refine ⟨by simp, ?_, ?_, ?_, ?_⟩
  · rw [hlrs 0 (by omega)]
    exact hrs0
  · intro j hj
    rw [hlrs j (by omega), hlrs (j + 1) (by omega)]
    have := hstep ((j : ℕ) : ℤ) (by omega) (by exact_mod_cast hj)
    push_cast
    omega
  · intro j hj k1 k2 h1 h12 h2
    rw [hlrs j (by omega)] at h1
    rw [hlrs (j + 1) (by omega)] at h2
    push_cast at h2
    have hjlt : ((j : ℕ) : ℤ) < (n : ℤ) := by exact_mod_cast hj
    have hstepj : rs (((j : ℕ) : ℤ) + 1)
        = rs ((j : ℕ) : ℤ) + ((L2 ((j : ℕ) : ℤ)).length : ℤ) :=
      hstep ((j : ℕ) : ℤ) (by omega) hjlt
    have hrsj0 : (0 : ℤ) ≤ rs ((j : ℕ) : ℤ) := hrsnn _ (by omega) (by omega)
    have ht2len : (k2 - rs ((j : ℕ) : ℤ)).toNat < (L2 ((j : ℕ) : ℤ)).length := by
      omega
    have hk1n : k1.toNat < (rs ((n : ℕ) : ℤ)).toNat := by
      have h3 : rs (((j : ℕ) : ℤ) + 1) ≤ rs ((n : ℕ) : ℤ) :=
        hrsmono (((j : ℕ) : ℤ) + 1) ((n : ℕ) : ℤ) (by omega) (by omega) (by omega)
      omega
    have hk2n : k2.toNat < (rs ((n : ℕ) : ℤ)).toNat := by
      have h3 : rs (((j : ℕ) : ℤ) + 1) ≤ rs ((n : ℕ) : ℤ) :=
        hrsmono (((j : ℕ) : ℤ) + 1) ((n : ℕ) : ℤ) (by omega) (by omega) (by omega)
      omega
    rw [getD_map_range _ _ _ hk1n, getD_map_range _ _ _ hk2n]
    have hb1 := hB ((j : ℕ) : ℤ) (by omega) hjlt (k1 - rs ((j : ℕ) : ℤ)).toNat
      (by omega)
    have hb2 := hB ((j : ℕ) : ℤ) (by omega) hjlt (k2 - rs ((j : ℕ) : ℤ)).toNat
      ht2len
    rw [show ((k1.toNat : ℕ) : ℤ) = rs ((j : ℕ) : ℤ)
        + (((k1 - rs ((j : ℕ) : ℤ)).toNat : ℕ) : ℤ) by omega, hb1]
    rw [show ((k2.toNat : ℕ) : ℤ) = rs ((j : ℕ) : ℤ)
        + (((k2 - rs ((j : ℕ) : ℤ)).toNat : ℕ) : ℤ) by omega, hb2]
    exact sorted_getD_lt (L2 ((j : ℕ) : ℤ)) (hinv ((j : ℕ) : ℤ) (by omega) hjlt).1.1
      _ _ (by omega) ht2len
  · rw [hlrs n (le_refl n)]
    have h0 : (0 : ℤ) ≤ rs ((n : ℕ) : ℤ) := hrsnn _ (by omega) (by omega)
    simp only [List.length_map, List.length_range]
    omega

lemma except_bind_ok {ε α β : Type} (a : α) (k : α → Except ε β) :
    (Except.ok a >>= k) = k a := rfl

lemma except_bind_err {ε α β : Type} (e : ε) (k : α → Except ε β) :
    ((Except.error e : Except ε α) >>= k) = Except.error e := rfl

lemma except_pure_eq {ε α : Type} (a : α) :
    (pure a : Except ε α) = Except.ok a := rfl

/-- The columns of row `i` as the assembly reads them off the built
patterns are exactly the stored per-row column list. -/
lemma colsOf_pats (pats : List (List ℤ × List ℚ)) (i : ℤ) :
    colsOf (arowOf pats) (acolOf pats) i = (pats.getD i.toNat ([], [])).1 := by
  rw [colsOf, arowOf, Int.toNat_natCast]
  apply List.ext_getElem
  · simp
  · intro k h1 h2
    simp only [List.getElem_map, List.getElem_range]
    rw [acolOf, Int.toNat_natCast, List.getD_eq_getElem _ 0 h2]

/-- Invariant of the pattern-building loop: from a valid stream state and
rows so far that are duplicate-free with columns in `[0, na)`, a
successful rest of the loop ends with all rows duplicate-free with
columns in `[0, na)` (the generator yields distinct indices in `[1, na]`,
`vector_set` preserves distinctness, and every stored column is one of
those indices minus one). -/
lemma makePatterns_aux (na nonzer fuel : ℕ) :
    ∀ (ts : List ℕ) (acc : List (List ℤ × List ℚ) × ℚ)
      (pats : List (List ℤ × List ℚ)) (sf : ℚ),
      IsLCGState acc.2 →
      (∀ t ∈ ts, t < na) →
      (∀ pr ∈ acc.1, pr.1.Nodup ∧ ∀ cc ∈ pr.1, 0 ≤ cc ∧ cc < (na : ℤ)) →
      ts.foldlM (fun (acc : List (List ℤ × List ℚ) × ℚ) (iouter : ℕ) => do
          let g ← generate_sparse_vector (na : ℤ) nonzer (nn1Of na) fuel acc.2
              (List.replicate (nonzer + 1) 0) (List.replicate (nonzer + 1) 0) 0
          let w ← vector_set g.1 g.2.1 nonzer ((iouter : ℤ) + 1) (1 / 2)
          pure (acc.1 ++ [((w.2.1.take w.2.2).map (fun c => c - 1), w.1.take w.2.2)],
            g.2.2)) acc = .ok (pats, sf) →
      ∀ pr ∈ pats, pr.1.Nodup ∧ ∀ cc ∈ pr.1, 0 ≤ cc ∧ cc < (na : ℤ) := by
  intro ts
  induction ts with
  | nil =>
    intro acc pats sf hs hts hgood hrun
    rw [List.foldlM_nil] at hrun
    have heq : acc = (pats, sf) := Except.ok.inj hrun
    intro pr hpr
    refine hgood pr ?_
    rw [heq]
    exact hpr
  | cons t ts2 ih =>
    intro acc pats sf hs hts hgood hrun
    rw [List.foldlM_cons] at hrun
    cases hg : generate_sparse_vector (na : ℤ) nonzer (nn1Of na) fuel acc.2
        (List.replicate (nonzer + 1) 0) (List.replicate (nonzer + 1) 0) 0 with
    | error e =>
      rw [hg, except_bind_err, except_bind_err] at hrun
      exact Except.noConfusion hrun
    | ok g =>
      rw [hg, except_bind_ok] at hrun
      obtain ⟨hvlen, hivlen, hnd, hrange, hlen, hs2⟩ :=
        generate_sparse_vector_post (na : ℤ) nonzer (nn1Of na)
          (by rw [nn1Of]; positivity) fuel acc.2 _ _ 0 g.1 g.2.1 g.2.2 hs
          (by simp) (by simp) (Nat.zero_le _)
          (by simp only [List.length_replicate]; omega) hg
      rw [List.length_replicate] at hvlen hivlen
      obtain ⟨v2, iv2, nzv2, hvs, hcases, hivlen2, hvlen2⟩ :=
        vector_set_spec g.1 g.2.1 nonzer ((t : ℤ) + 1) (1 / 2)
          (by omega) (by omega)
      rw [hvs, except_bind_ok, except_pure_eq, except_bind_ok] at hrun
      have hprefOk : (iv2.take nzv2).Nodup
          ∧ ∀ c ∈ iv2.take nzv2, 1 ≤ c ∧ c ≤ (na : ℤ) := by
        rcases hcases with ⟨hmem, hn2, hpre⟩ | ⟨habs, hn2, hpre⟩
        · rw [hpre]
          exact ⟨hnd, hrange⟩
        · rw [hpre]
          constructor
          · simp only [List.nodup_append, List.nodup_cons, List.nodup_nil]
            refine ⟨hnd, by simp, ?_⟩
            intro a ha hb
            have : a = (t : ℤ) + 1 := by simpa using hb
            rw [this] at ha
            exact habs ha
          · intro c hc
            rcases List.mem_append.mp hc with hc | hc
            · exact hrange c hc
            · have hceq : c = (t : ℤ) + 1 := by simpa using hc
              have htna : t < na := hts t (by simp)
              constructor
              · omega
              · rw [hceq]
                push_cast
                omega
      refine ih (acc.1 ++ [((iv2.take nzv2).map (fun c => c - 1), v2.take nzv2)],
          g.2.2) pats sf hs2 (fun t2 ht2 => hts t2 (by simp [ht2])) ?_ hrun
      intro pr hpr
      rcases List.mem_append.mp hpr with hpr | hpr
      · exact hgood pr hpr
      · have hpr2 : pr = ((iv2.take nzv2).map (fun c => c - 1), v2.take nzv2) := by
          simpa using hpr
        subst hpr2
        constructor
        · apply List.Nodup.map
          · intro a b hab
            have hab2 : a - 1 = b - 1 := hab
            omega
          · exact hprefOk.1
        · intro cc hcc
          obtain ⟨c, hc, hcc2⟩ := List.mem_map.mp hcc
          have := hprefOk.2 c hc
          omega

/-- The patterns `make_matrix` builds are well formed for the assembly:
every row's column list is duplicate-free with entries in `[0, na)`. -/
lemma makePatterns_wf (na nonzer fuel : ℕ) (s0 : ℚ) (hs0 : IsLCGState s0)
    (pats : List (List ℤ × List ℚ)) (sf : ℚ)
    (hrun : makePatterns na nonzer fuel s0 = .ok (pats, sf)) :
    PatWF na (arowOf pats) (acolOf pats) := by
  have hgood : ∀ pr ∈ pats, pr.1.Nodup ∧ ∀ cc ∈ pr.1, 0 ≤ cc ∧ cc < (na : ℤ) := by
    apply makePatterns_aux na nonzer fuel (List.range na)
      ([], (randlc s0 amult).1) pats sf (randlc_state s0 hs0).1
      (fun t ht => List.mem_range.mp ht)
      (fun pr hpr => absurd hpr (List.not_mem_nil pr))
    rw [makePatterns] at hrun
    exact hrun
  constructor
  · intro i2
    rw [arowOf]
    positivity
  · intro i2 h0 hn2
    rw [colsOf_pats]
    by_cases hlt : i2.toNat < pats.length
    · exact hgood _ (getD_pair_mem pats ([], []) i2.toNat hlt)
    · rw [List.getD_eq_default _ _ (le_of_not_lt hlt)]
      exact ⟨List.nodup_nil, fun cc hcc => absurd hcc (List.not_mem_nil cc)⟩

/-- A concrete pattern build: `na = 1`, `nonzer = 1` from the benchmark
seed.  One generator draw (index 1) fills the row, `vector_set` merges
the forced index `1`, and the stored pattern is the single column `0`
with value `1/2`. -/
lemma makePatterns_concrete :
    makePatterns 1 1 10 tran0
      = .ok ([([0], [(1 : ℚ) / 2])], ((45573031421645 : ℕ) : ℚ)) := by
  have h1 : randlc tran0 amult
      = (((55909509111989 : ℕ) : ℚ), ((55909509111989 : ℕ) : ℚ) / 2 ^ 46) := by
    rw [show tran0 = ((314159265 : ℕ) : ℚ) by norm_num [tran0],
        show amult = ((1220703125 : ℕ) : ℚ) by norm_num [amult], randlc_int]
    norm_num
  have h2 : randlc (((55909509111989 : ℕ) : ℚ)) amult
      = (((61155031930969 : ℕ) : ℚ), ((61155031930969 : ℕ) : ℚ) / 2 ^ 46) := by
    rw [show amult = ((1220703125 : ℕ) : ℚ) by norm_num [amult], randlc_int]
    norm_num
  have h3 : randlc (((61155031930969 : ℕ) : ℚ)) amult
      = (((45573031421645 : ℕ) : ℚ), ((45573031421645 : ℕ) : ℚ) / 2 ^ 46) := by
    rw [show amult = ((1220703125 : ℕ) : ℚ) by norm_num [amult], randlc_int]
    norm_num
  have hnn1 : nn1Of 1 = 1 := by
    rw [nn1Of, Nat.clog_one_right]
    norm_num
  have hconv : convert_real_to_int (((45573031421645 : ℕ) : ℚ) / 2 ^ 46) 1 = 0 := by
    rw [show (1 : ℤ) = ((1 : ℕ) : ℤ) by norm_num, convert_real_to_int_cast_div]
    norm_num
  have hgen : generate_sparse_vector ((1 : ℕ) : ℤ) 1 (nn1Of 1) 10
      (((55909509111989 : ℕ) : ℚ)) (List.replicate (1 + 1) 0)
      (List.replicate (1 + 1) 0) 0
      = .ok ([((61155031930969 : ℕ) : ℚ) / 2 ^ 46, 0], [1, 0],
          ((45573031421645 : ℕ) : ℚ)) := by
    rw [hnn1, generate_sparse_vector, if_pos (by norm_num)]
    simp only [h2, h3, hconv]
    rw [if_neg (by norm_num)]
    rw [if_neg (by simp)]
    rw [setChecked_ok _ _ _ (by simp), setChecked_ok _ _ _ (by simp)]
    simp only [List.replicate, List.set]
    rw [generate_sparse_vector]
    rw [if_neg (by norm_num)]
    norm_num
  rw [makePatterns, show List.range 1 = [0] from rfl, List.foldlM_cons]
  simp only [h1]
  rw [hgen, except_bind_ok]
  rfl

/-- **C1.** After `sparse_matrix_assembly` returns on the per-row
patterns produced by `make_matrix` (any fuel, any valid stream seed, any
value entries and conditioning constants), the CSR triple is well formed:
`row_start` has `na + 1` entries starting at `0` and is monotone, within
every slice `[row_start[i], row_start[i+1])` the stored column indices
are strictly increasing (duplicates were merged during assembly), and
`row_start[na]` equals the total number of stored nonzeros. -/
theorem claimC1_assembled_csr_wellformed {V : Type} [Ring V]
    (na nonzer fuel : ℕ) (s0 : ℚ) (hs0 : IsLCGState s0)
    (pats : List (List ℤ × List ℚ)) (sf : ℚ)
    (hpat : makePatterns na nonzer fuel s0 = .ok (pats, sf))
    (aelt : ℤ → ℤ → V) (rcond shift ratio : V) (nz : ℤ)
    (hok : (sparse V na nz (arowOf pats) (acolOf pats) aelt rcond shift ratio).isOk
      = true) :
    CSRWellFormed na
      (csrCols (sparse V na nz (arowOf pats) (acolOf pats) aelt rcond shift ratio))
      (csrRows (sparse V na nz (arowOf pats) (acolOf pats) aelt rcond shift ratio)) := by
  have hwf := makePatterns_wf na nonzer fuel s0 hs0 pats sf hpat
  by_cases hcap : rowstrF na (arowOf pats) (acolOf pats) (na : ℤ) - 1 > nz
  · exfalso
    have herr : sparse V na nz (arowOf pats) (acolOf pats) aelt rcond shift ratio
        = .error "Space for matrix elements exceeded in sparse assembly" := by
      rw [sparse]
      rw [if_pos hcap]
    rw [herr] at hok
    exact Bool.noConfusion hok
  · obtain ⟨st2, L2, hpass, hinv⟩ := sparsePass2_spec na (arowOf pats)
      (acolOf pats) aelt rcond shift ratio hwf
    rw [sparse_ok_eq na nz (arowOf pats) (acolOf pats) aelt rcond shift ratio
      st2 hpass hcap]
    exact compacted_csr_wellformed na (arowOf pats) (acolOf pats) hwf st2 L2 hinv

/-- Witness for C1: the assembly of the concrete one-row pattern build
returns a well-formed CSR triple. -/
theorem claimC1_assembled_csr_wellformed_witness :
    CSRWellFormed 1
      (csrCols (sparse ℚ 1 4 (arowOf [([0], [(1 : ℚ) / 2])])
        (acolOf [([0], [(1 : ℚ) / 2])]) (fun _ _ => (0 : ℚ)) 0 0 0))
      (csrRows (sparse ℚ 1 4 (arowOf [([0], [(1 : ℚ) / 2])])
        (acolOf [([0], [(1 : ℚ) / 2])]) (fun _ _ => (0 : ℚ)) 0 0 0)) :=
  claimC1_assembled_csr_wellformed 1 1 10 tran0 isLCGState_tran0
    [([0], [(1 : ℚ) / 2])] ((45573031421645 : ℕ) : ℚ) makePatterns_concrete
    (fun _ _ => (0 : ℚ)) 0 0 0 4 (by rfl)

/-- **C6.** Under the row patterns produced by `make_matrix` (each row's
column list duplicate-free and in range, and each CSR row sized by the
pass-1 counting), every insertion scan of the assembly terminates in one
of its three cases, so the internal-consistency fall-through abort is
unreachable: the assembly never returns that error, for any buffer
capacity `nz` and any value entries. -/
theorem claimC6_insertion_fallthrough_unreachable {V : Type} [Ring V]
    (na nonzer fuel : ℕ) (s0 : ℚ) (hs0 : IsLCGState s0)
    (pats : List (List ℤ × List ℚ)) (sf : ℚ)
    (hpat : makePatterns na nonzer fuel s0 = .ok (pats, sf))
    (aelt : ℤ → ℤ → V) (rcond shift ratio : V) (nz : ℤ) :
    sparse V na nz (arowOf pats) (acolOf pats) aelt rcond shift ratio
      ≠ .error "Internal error in sparse assembly" := by
  have hwf := makePatterns_wf na nonzer fuel s0 hs0 pats sf hpat
  by_cases hcap : rowstrF na (arowOf pats) (acolOf pats) (na : ℤ) - 1 > nz
  · have herr : sparse V na nz (arowOf pats) (acolOf pats) aelt rcond shift ratio
        = .error "Space for matrix elements exceeded in sparse assembly" := by
      rw [sparse]
      rw [if_pos hcap]
    rw [herr]
    intro hcon
    have hmsg : "Space for matrix elements exceeded in sparse assembly"
        = "Internal error in sparse assembly" := by
      injection hcon
    exact absurd hmsg (by decide)
  · obtain ⟨st2, L2, hpass, -⟩ := sparsePass2_spec na (arowOf pats)
      (acolOf pats) aelt rcond shift ratio hwf
    rw [sparse_ok_eq na nz (arowOf pats) (acolOf pats) aelt rcond shift ratio
      st2 hpass hcap]
    intro hcon
    exact Except.noConfusion hcon

/-- Witness for C6: the concrete one-row assembly does not hit the
internal fall-through error. -/
theorem claimC6_insertion_fallthrough_unreachable_witness :
    sparse ℚ 1 4 (arowOf [([0], [(1 : ℚ) / 2])]) (acolOf [([0], [(1 : ℚ) / 2])])
        (fun _ _ => (0 : ℚ)) 0 0 0
      ≠ .error "Internal error in sparse assembly" :=
  claimC6_insertion_fallthrough_unreachable 1 1 10 tran0 isLCGState_tran0
    [([0], [(1 : ℚ) / 2])] ((45573031421645 : ℕ) : ℚ) makePatterns_concrete
    (fun _ _ => (0 : ℚ)) 0 0 0 4

end NPBCG
